import Mathlib

/-!
Shallow embedding of the `network_info` ingestion pipeline (`create_db.py`,
`db/model.py`) and proofs checking the specification's claims against it.

Modelling conventions:
* Python `bytes` values are modelled as Lean `String`s whose characters are
  the byte values 0–255; decoding with latin-1 (as `parse_property` does) is
  the identity under this convention, so no separate decode step appears.
* Python `None`-or-string values are modelled as `Option String`; Python
  truthiness of such a value (`if x:`) is `pyTruthy`.
* Fallible Python operations (bytes `%`-interpolation of `None`,
  `int()` of a non-digit string, out-of-range indexing) are modelled with
  `Except String`, the error string naming the Python exception.
* Functions that scan a character list and can resume at a non-structural
  position take an explicit fuel argument; callers pass the list length,
  which always suffices (each step consumes at least one character).
-/

namespace NetworkInfo

/-! ## Python string primitives -/

/-- The six ASCII whitespace bytes of Python's `bytes.strip`/`bytes.split`
and of the regex class `\s` for bytes patterns. -/
def isPyWs (c : Char) : Bool :=
  c = ' ' || c = '\t' || c = '\n' || c = '\r' || c = '\x0b' || c = '\x0c'

/-- Python `bytes.strip()`: drop leading and trailing ASCII whitespace. -/
def pyStrip (l : List Char) : List Char :=
  ((l.dropWhile isPyWs).reverse.dropWhile isPyWs).reverse

/-- Python `bytes.split()` with no separator: split on runs of ASCII
whitespace, discarding empty pieces.  `acc` holds the current word
reversed. -/
def wsSplitAux : List Char → List Char → List (List Char)
  | [], acc => if acc = [] then [] else [acc.reverse]
  | c :: r, acc =>
    if isPyWs c then
      if acc = [] then wsSplitAux r [] else acc.reverse :: wsSplitAux r []
    else wsSplitAux r (c :: acc)

/-- Python `bytes.split()` with no separator. -/
def wsSplit (l : List Char) : List (List Char) := wsSplitAux l []

/-- Python `x.replace(pat, b"")`: remove every non-overlapping occurrence of
`pat`, scanning left to right.  `fuel ≥ l.length` makes the scan total. -/
def removeAllAux (pat : List Char) : Nat → List Char → List Char
  | 0, l => l
  | fuel + 1, l =>
    if pat ≠ [] ∧ pat.isPrefixOf l then removeAllAux pat fuel (l.drop pat.length)
    else
      match l with
      | [] => []
      | c :: r => c :: removeAllAux pat fuel r

/-- Python `x.replace(pat, b"")`. -/
def removeAll (pat l : List Char) : List Char := removeAllAux pat l.length l

/-- Python `needle in haystack` for strings/bytes (substring anywhere). -/
def strContains (haystack needle : String) : Bool :=
  (List.range (haystack.data.length + 1)).any
    fun i => needle.data.isPrefixOf (haystack.data.drop i)

/-- Python `haystack.startswith(p)`. -/
def strStartsWith (s p : String) : Bool := p.data.isPrefixOf s.data

/-- Python `x.split(sep)` with a one-character separator: split at every
occurrence, keeping empty pieces.  `acc` holds the current piece
reversed. -/
def splitChar (sep : Char) : List Char → List Char → List (List Char)
  | [], acc => [acc.reverse]
  | c :: r, acc =>
    if c = sep then acc.reverse :: splitChar sep r [] else splitChar sep r (c :: acc)

/-- Python truthiness of an optional string: `None` and the empty string are
falsy, everything else is truthy. -/
def pyTruthy : Option String → Bool
  | none => false
  | some s => s ≠ ""

/-- How Python renders an optional string inside an f-string: `None` prints
as the text `None`, a string prints as itself. -/
def pyShowOpt : Option String → String
  | none => "None"
  | some s => s

/-! ## Registry Classifier (`get_source`, create_db.py lines 83–103) -/

/-- Embeds `get_source`: determine the RIR source tag from the filename.  The chain
of checks is embedded in source order: `afrinic`, `apnic`, `arin` by prefix,
then `lacnic` by substring anywhere, then `ripe` by prefix; otherwise
`None`. -/
def get_source (filename : String) : Option String :=
  if strStartsWith filename "afrinic" then some "afrinic"
  else if strStartsWith filename "apnic" then some "apnic"
  else if strStartsWith filename "arin" then some "arin"
  else if strContains filename "lacnic" then some "lacnic"
  else if strStartsWith filename "ripe" then some "ripe"
  else none

/-! ## The Block model (`db/model.py` lines 18–54) -/

/-- One SQLAlchemy column of the `block` table: name, whether an index is
requested, and whether the column is declared `nullable=False`. -/
structure ColumnDef where
  name : String
  indexed : Bool
  notNull : Bool
deriving DecidableEq, Repr

/-- An entry of a model's `__table_args__`: either a plain (non-unique)
`Index` or a named `UniqueConstraint` over a list of columns. -/
inductive TableArg where
  | index (name : String) (expr : String)
  | uniqueConstraint (name : String) (cols : List String)
deriving DecidableEq, Repr

/-- The columns of the `Block` model, in source order (`db/model.py`
lines 37–46). -/
def blockColumns : List ColumnDef :=
  [ ⟨"id", false, true⟩,
    ⟨"inetnum", true, true⟩,
    ⟨"netname", true, false⟩,
    ⟨"description", false, false⟩,
    ⟨"country", true, false⟩,
    ⟨"maintained_by", true, false⟩,
    ⟨"created", true, false⟩,
    ⟨"last_modified", true, false⟩,
    ⟨"source", true, false⟩,
    ⟨"status", true, false⟩ ]

/-- The `Block` model's `__table_args__` (`db/model.py` lines 48–54): a
single GIN full-text index over `description` and nothing else. -/
def blockTableArgs : List TableArg :=
  [ TableArg.index "ix_block_description" "to_tsvector(english, description)" ]

/-- The names of the unique constraints a `__table_args__` list declares. -/
def uniqueConstraintNames (args : List TableArg) : List String :=
  args.filterMap fun a =>
    match a with
    | TableArg.index _ _ => none
    | TableArg.uniqueConstraint n _ => some n

/-- The columns of the unique constraint named `n`, if `args` declares one. -/
def findUniqueConstraint (args : List TableArg) (n : String) : Option (List String) :=
  args.findSome? fun a =>
    match a with
    | TableArg.index _ _ => none
    | TableArg.uniqueConstraint m cols => if m = n then some cols else none

/-- The constraint name `upsert_block` resolves conflicts against
(`create_db.py` line 262). -/
def upsertConflictConstraint : String := "uq_block_inetnum_source"

/-! ## Property Extractor (`parse_property`, create_db.py lines 106–133)

`re.findall(b"^%s:\\s?(.+)$" % name, block, re.MULTILINE)` is embedded as a
deterministic scanner.  At a line start (offset 0 or just after a newline)
the pattern `name ++ ":"` must be literal; then the regex engine greedily
tries `\s?` with one whitespace character (which may be the newline itself,
since `\s` matches `\n` while `.` does not) and captures the longest
nonempty run of non-newline characters; if that fails it backtracks to the
empty `\s?`.  `re.findall` then resumes scanning after the capture, and `^`
only fires at offset 0 or right after a `\n`. -/

/-- Attempt the pattern `^name:\s?(.+)$` at the head of `l` (which must be a
line start).  On success, return the captured group and the rest of the
input after the match. -/
def matchAt (name : List Char) (l : List Char) : Option (List Char × List Char) :=
  let pat := name ++ [':']
  if pat.isPrefixOf l then
    match l.drop pat.length with
    | [] => none
    | c :: r =>
      if isPyWs c then
        let cap := r.takeWhile (fun ch => ch ≠ '\n')
        if cap = [] then
          if c ≠ '\n' then some ([c], r) else none
        else some (cap, r.drop cap.length)
      else
        let cap := (c :: r).takeWhile (fun ch => ch ≠ '\n')
        some (cap, (c :: r).drop cap.length)
  else none

/-- The scan loop of `re.findall`: at every line start try `matchAt`; on a
match, emit the capture and resume after it (no longer at a line start);
otherwise consume one character, a newline re-arming the line-start flag.
`fuel ≥ l.length` makes the scan total. -/
def findallAux (name : List Char) : Nat → List Char → Bool → List (List Char)
  | 0, _, _ => []
  | fuel + 1, l, atStart =>
    Option.casesOn (if atStart then matchAt name l else none)
      (match l with
       | [] => []
       | c :: r => findallAux name fuel r (c = '\n'))
      fun p => p.1 :: findallAux name fuel p.2 false

/-- All captures of `^name:\s?(.+)$` over `block`, in order. -/
def findallProp (name : List Char) (block : List Char) : List (List Char) :=
  findallAux name block.length block true

/-- The post-processing generator of `parse_property` applied to one match:
strip, then remove occurrences of `name ++ ": "` (Python applies the same
`replace` twice). -/
def cleanMatch (name : List Char) (m : List Char) : List Char :=
  removeAll (name ++ [':', ' ']) (removeAll (name ++ [':', ' ']) (pyStrip m))

/-- Embeds `parse_property`: extract a property value from a WHOIS block, or `none`
when no line matches.  Matches are cleaned, empty pieces dropped
(`filter(None, ...)`), joined with a single space, and whitespace runs are
collapsed (`b" ".join(x.split())`); latin-1 decoding is the identity here. -/
def parse_property (block : String) (name : String) : Option String :=
  match findallProp name.data block.data with
  | [] => none
  | _ :: _ =>
    let pieces := ((findallProp name.data block.data).map (cleanMatch name.data)).filter
      (fun p => p ≠ [])
    some ⟨List.intercalate [' '] (wsSplit (List.intercalate [' '] pieces))⟩

/-! ## CIDR Range Normalizer, numeric layer

The IPv4-range branch of `parse_property_inetnum` (create_db.py lines
152–162) delegates to `netaddr.iprange_to_cidrs(ip_start, ip_end)`.  That
library call returns the minimal exact CIDR cover of the inclusive address
range `[start, end]`, in ascending order: repeatedly emit, at the current
start, the largest power-of-two block that is aligned there and does not
pass the end.  `rangeToCidrs` below embeds that behaviour (the library's
behaviour on a reversed range, `start > end`, is degenerate and not
modelled: the model returns the empty decomposition there, and no claim
depends on that case). -/

/-- Largest exponent `m ≤ cap` with `2 ^ m` dividing `s` (with `m = cap`
when `s = 0`): the alignment limit of a block starting at `s`. -/
def alignExp : Nat → Nat → Nat
  | _, 0 => 0
  | s, cap + 1 => if s % 2 = 0 then alignExp (s / 2) cap + 1 else 0

/-- Largest exponent `m ≤ cap` with `2 ^ m ≤ n`, scanning down from `cap`
(0 when `n = 0`, where no exponent fits). -/
def fitExp : Nat → Nat → Nat
  | 0, _ => 0
  | cap + 1, n => if 2 ^ (cap + 1) ≤ n then cap + 1 else fitExp cap n

/-- The exponent of the block the greedy decomposition emits at `s` against
the half-open upper bound `t`: the largest `m` with `2 ^ m ∣ s` (capped at
32) and `s + 2 ^ m ≤ t`. -/
def greedyLog (s t : Nat) : Nat := min (alignExp s 32) (fitExp 32 (t - s))

/-- Greedy decomposition of the half-open range `[s, t)` into aligned
power-of-two blocks `(start, exponent)`.  Each step consumes at least one
address, so `fuel ≥ t - s` makes the recursion total. -/
def greedyAux : Nat → Nat → Nat → List (Nat × Nat)
  | 0, _, _ => []
  | fuel + 1, s, t =>
    if s < t then (s, greedyLog s t) :: greedyAux fuel (s + 2 ^ greedyLog s t) t else []

/-- Greedy decomposition of the half-open range `[s, t)`. -/
def greedyCidrs (s t : Nat) : List (Nat × Nat) := greedyAux (t - s) s t

/-- Embeds `netaddr.iprange_to_cidrs` on the inclusive IPv4 range `[s, e]`:
the list of CIDR blocks `(network address, mask length)` of the minimal
exact cover, ascending. -/
def rangeToCidrs (s e : Nat) : List (Nat × Nat) :=
  (greedyCidrs s (e + 1)).map fun c => (c.1, 32 - c.2)

/-- The IPv4 address with octets `a.b.c.d` as a number. -/
def ipv4 (a b c d : Nat) : Nat := ((a * 256 + b) * 256 + c) * 256 + d

/-- Membership of address `x` in the CIDR block `(address, mask length)`. -/
def memCidr (x : Nat) (c : Nat × Nat) : Prop := c.1 ≤ x ∧ x < c.1 + 2 ^ (32 - c.2)

/-- A CIDR block `(address, mask length)` is properly aligned: the mask
length is at most 32 and the host bits beyond the mask are zero. -/
def cidrAligned (c : Nat × Nat) : Prop := c.2 ≤ 32 ∧ 2 ^ (32 - c.2) ∣ c.1

/-- Two CIDR blocks are disjoint: no address lies in both. -/
def cidrDisjoint (c d : Nat × Nat) : Prop := ∀ x, ¬ (memCidr x c ∧ memCidr x d)

/-- A list of CIDR blocks covers exactly the inclusive range `[s, e]`: its
union is that range, with no gap and nothing outside. -/
def exactCover (s e : Nat) (P : List (Nat × Nat)) : Prop :=
  ∀ x, (∃ c ∈ P, memCidr x c) ↔ (s ≤ x ∧ x ≤ e)

/-! ## CIDR Range Normalizer, textual layer
(`parse_property_inetnum`, create_db.py lines 136–208)

Each of the seven `re.findall` calls is embedded as a deterministic scanner
over the block's characters, tried at every line start (`^` with
`re.MULTILINE`), first match wins.  Determinism is faithful here: in these
patterns every backtracking alternative of `\d{1,3}` places a digit where
the pattern next requires `.`, `/`, `-` or whitespace, so maximal munch
matches exactly when the regex does, and `[\s]*` likewise.  Note `[\s]`
matches newlines, so the whitespace runs may cross line boundaries, exactly
as in the Python regexes. -/

/-- Consume one expected literal character. -/
def expectChar (c : Char) : List Char → Option (List Char)
  | x :: r => if x = c then some r else none
  | [] => none

/-- Consume a maximal run of regex-`\s` characters (`[\s]*`). -/
def skipPyWs (l : List Char) : List Char := l.dropWhile isPyWs

/-- Consume `\d{1,3}`: one to three digits, maximal munch. -/
def takeDigits13 : List Char → Option (List Char × List Char)
  | [] => none
  | c :: r =>
    if c.isDigit then
      match r with
      | c2 :: r2 =>
        if c2.isDigit then
          match r2 with
          | c3 :: r3 => if c3.isDigit then some ([c, c2, c3], r3) else some ([c, c2], r2)
          | [] => some ([c, c2], [])
        else some ([c], r)
      | [] => some ([c], [])
    else none

/-- Consume `\d+`: a maximal nonempty run of digits. -/
def takeDigits1 (l : List Char) : Option (List Char × List Char) :=
  match l.takeWhile Char.isDigit with
  | [] => none
  | ds => some (ds, l.drop ds.length)

/-- Consume `\d{1,2}`: one or two digits, maximal munch. -/
def takeDigits12 : List Char → Option (List Char × List Char)
  | [] => none
  | c :: r =>
    if c.isDigit then
      match r with
      | c2 :: r2 => if c2.isDigit then some ([c, c2], r2) else some ([c], r)
      | [] => some ([c], [])
    else none

/-- Consume `(?:\d{1,3}\.){k}\d{1,3}`, returning the matched text.  `k + 1`
octets separated by dots. -/
def takeOctets : Nat → List Char → Option (List Char × List Char)
  | 0, l => takeDigits13 l
  | k + 1, l =>
    (takeDigits13 l).bind fun p =>
      (expectChar '.' p.2).bind fun r2 =>
        (takeOctets k r2).map fun q => (p.1 ++ '.' :: q.1, q.2)

/-- Consume the class `[0-9a-fA-F:\/]`. -/
def isHexColonSlash (c : Char) : Bool :=
  c.isDigit || ('a' ≤ c && c ≤ 'f') || ('A' ≤ c && c ≤ 'F') || c = ':' || c = '/'

/-- Consume `[0-9a-fA-F:\/]{1,43}`: maximal munch, at most 43 characters. -/
def takeHex43 (l : List Char) : Option (List Char × List Char) :=
  match (l.takeWhile isHexColonSlash).take 43 with
  | [] => none
  | ds => some (ds, l.drop ds.length)

/-- Try a line matcher at every line start of the block, leftmost match
first, as `re.findall`'s first result with a `^`-anchored multiline
pattern.  Advancing one character is structural, so no fuel is needed. -/
def findAtLineStarts (m : List Char → Option α) : List Char → Bool → Option α
  | [], atStart => if atStart then m [] else none
  | c :: r, atStart =>
    Option.casesOn (if atStart then m (c :: r) else none)
      (findAtLineStarts m r (c = '\n'))
      some

/-- Drop an expected literal keyword from the head of the input. -/
def dropLit (kw : String) (l : List Char) : Option (List Char) :=
  if kw.data.isPrefixOf l then some (l.drop kw.data.length) else none

/-- Line matcher for `^inetnum:[\s]*(q)[\s]*-[\s]*(q)` where `q` is a
dotted quad: returns the two captured quads. -/
def matchInetnumRange (l : List Char) : Option (List Char × List Char) :=
  match dropLit "inetnum:" l with
  | none => none
  | some r0 =>
    match takeOctets 3 (skipPyWs r0) with
    | none => none
    | some (q1, r1) =>
      match expectChar '-' (skipPyWs r1) with
      | none => none
      | some r2 =>
        match takeOctets 3 (skipPyWs r2) with
        | none => none
        | some (q2, _) => some (q1, q2)

/-- Line matcher for `^kw:[\s]*((?:\d{1,3}\.){k}\d{1,3}/\d+)`: a keyword, a
truncated-or-full dotted address of `k + 1` octets, a slash and a mask.
Returns the address text and the mask text. -/
def matchKwAddrSlash (kw : String) (k : Nat) (l : List Char) : Option (List Char × List Char) :=
  match dropLit kw l with
  | none => none
  | some r0 =>
    match takeOctets k (skipPyWs r0) with
    | none => none
    | some (addr, r1) =>
      match expectChar '/' r1 with
      | none => none
      | some r2 =>
        match takeDigits1 r2 with
        | none => none
        | some (mask, _) => some (addr, mask)

/-- Line matcher for `^route:[\s]*((?:\d{1,3}\.){3}\d{1,3}/\d{1,2})`. -/
def matchRoute4 (l : List Char) : Option (List Char × List Char) :=
  match dropLit "route:" l with
  | none => none
  | some r0 =>
    match takeOctets 3 (skipPyWs r0) with
    | none => none
    | some (addr, r1) =>
      match expectChar '/' r1 with
      | none => none
      | some r2 =>
        match takeDigits12 r2 with
        | none => none
        | some (mask, _) => some (addr, mask)

/-- Line matcher for `^kw:[\s]*([0-9a-fA-F:\/]{1,43})` (IPv6 objects). -/
def matchKwHex (kw : String) (l : List Char) : Option (List Char) :=
  match dropLit kw l with
  | none => none
  | some r0 =>
    match takeHex43 (skipPyWs r0) with
    | none => none
    | some (tok, _) => some tok

/-- Numeric value of a digit string. -/
def digitsToNat (ds : List Char) : Nat := ds.foldl (fun a c => 10 * a + (c.toNat - 48)) 0

/-- Split a captured dotted address back into its octet digit groups (the
model's counterpart of having captured them octet by octet). -/
def splitDots (l : List Char) : List (List Char) := (l.splitOn '.')

/-- Value of a captured dotted-quad address, validated the way
`netaddr.IPAddress` does: exactly four octets, each at most 255; `none`
models `AddrFormatError`. -/
def quadToNat (l : List Char) : Option Nat :=
  match splitDots l with
  | [a, b, c, d] =>
    let va := digitsToNat a
    let vb := digitsToNat b
    let vc := digitsToNat c
    let vd := digitsToNat d
    if va ≤ 255 ∧ vb ≤ 255 ∧ vc ≤ 255 ∧ vd ≤ 255 then some (ipv4 va vb vc vd) else none
  | _ => none

/-- Result of `parse_property_inetnum`: either the list of CIDR blocks a
dotted-quad range decomposes into (a Python list of `IPNetwork`), or a raw
CIDR string passed through or rewritten (Python `bytes`). -/
inductive InetnumResult where
  | cidrs (l : List (Nat × Nat))
  | cidrStr (s : String)
deriving DecidableEq, Repr

/-- Embeds `parse_property_inetnum`: extract the IP range/CIDR from a WHOIS
block, trying the seven formats in source order, first match wins; `none`
when nothing matches; an `AddrFormatError` from `netaddr` on an
out-of-range octet is an `Except.error`. -/
def parse_property_inetnum (block : String) : Except String (Option InetnumResult) :=
  match findAtLineStarts matchInetnumRange block.data true with
  | some (q1, q2) =>
    match quadToNat q1, quadToNat q2 with
    | some s, some e => .ok (some (.cidrs (rangeToCidrs s e)))
    | _, _ => .error "AddrFormatError"
  | none =>
  match findAtLineStarts (matchKwAddrSlash "inetnum:" 3) block.data true with
  | some (addr, mask) => .ok (some (.cidrStr ⟨addr ++ '/' :: mask⟩))
  | none =>
  match findAtLineStarts (matchKwAddrSlash "inetnum:" 2) block.data true with
  | some (addr, mask) => .ok (some (.cidrStr (⟨addr⟩ ++ ".0/" ++ ⟨mask⟩)))
  | none =>
  match findAtLineStarts (matchKwAddrSlash "inetnum:" 1) block.data true with
  | some (addr, mask) => .ok (some (.cidrStr (⟨addr⟩ ++ ".0.0/" ++ ⟨mask⟩)))
  | none =>
  match findAtLineStarts (matchKwHex "inet6num:") block.data true with
  | some tok => .ok (some (.cidrStr ⟨tok⟩))
  | none =>
  match findAtLineStarts matchRoute4 block.data true with
  | some (addr, mask) => .ok (some (.cidrStr ⟨addr ++ '/' :: mask⟩))
  | none =>
  match findAtLineStarts (matchKwHex "route6:") block.data true with
  | some tok => .ok (some (.cidrStr ⟨tok⟩))
  | none => .ok none

/-! ## Block Segmenter (`read_blocks`, create_db.py lines 211–249)

A file is modelled as its list of lines with the trailing newline stripped;
the accumulator re-appends `"\n"` exactly as iterating a Python file object
concatenates raw lines.  The synthetic `cust_source` line is appended with
bytes `%`-interpolation, which raises `TypeError` when the tag is `None`
(an object that is neither bytes-like nor has `__bytes__`). -/

/-- A line the segmenter discards unconditionally: comments and remarks. -/
def isCommentLine (line : String) : Bool :=
  strStartsWith line "%" || strStartsWith line "#" || strStartsWith line "remarks:"

/-- A blank line (only whitespace), the block terminator. -/
def isBlankLine (line : String) : Bool := pyStrip line.data = []

/-- An accumulated candidate block the segmenter retains: its first line is
one of the four recognized address-object types. -/
def isRecognizedBlock (acc : String) : Bool :=
  strStartsWith acc "inetnum:" || strStartsWith acc "inet6num:" ||
    strStartsWith acc "route:" || strStartsWith acc "route6:"

/-- Embeds `single_block += b"cust_source: %s" % cust_source`: bytes
interpolation of the tag, a `TypeError` when the tag is `None`. -/
def appendCustSource (tag : Option String) (acc : String) : Except String String :=
  match tag with
  | none => .error "TypeError: %b requires a bytes-like object, not NoneType"
  | some t => .ok (acc ++ "cust_source: " ++ t)

/-- One line of the segmenter loop: state is (candidate accumulator,
emitted blocks). -/
def readBlocksStep (tag : Option String) (st : String × List String) (line : String) :
    Except String (String × List String) :=
  if isCommentLine line then .ok st
  else if isBlankLine line then
    if isRecognizedBlock st.1 then
      match appendCustSource tag st.1 with
      | .error e => .error e
      | .ok b => .ok ("", st.2 ++ [b])
    else .ok ("", st.2)
  else .ok (st.1 ++ line ++ "\n", st.2)

/-- Embeds `read_blocks`: segment a file's lines into retained raw blocks.
The registry tag comes from the basename of the filename; the final
accumulator is dropped when the file ends without a blank line. -/
def read_blocks (filename : String) (lines : List String) : Except String (List String) :=
  let tag := get_source ⟨(splitChar '/' filename.data []).getLastD filename.data⟩
  (lines.foldlM (readBlocksStep tag) ("", [])).map (·.2)

/-! ## Field extraction of one block (`parse_blocks`, create_db.py
lines 307–347) -/

/-- Embeds `re.match(r"^.+?@.+? \d+", changed)` as a Boolean: the string
decomposes as `a ++ "@" ++ b ++ " " ++ d ++ _` with `a`, `b` nonempty runs
of non-newline characters and `d` starting with a digit. -/
def matchesChangedRe (s : String) : Bool :=
  let l := s.data
  (List.range l.length).any fun i =>
    decide (1 ≤ i) && (l.getD i ' ' == '@') && ((l.take i).all fun c => c ≠ '\n') &&
      ((List.range l.length).any fun k =>
        decide (i + 2 ≤ k) && (l.getD k 'x' == ' ') && decide (k + 1 < l.length) &&
          (l.getD (k + 1) 'x').isDigit && (((l.take k).drop (i + 1)).all fun c => c ≠ '\n'))

/-- Embeds Python `int(...)` on a string: optional surrounding whitespace,
optional sign, at least one digit; otherwise a `ValueError`. -/
def pyInt (l : List Char) : Except String Int :=
  match pyStrip l with
  | '-' :: ds =>
    if ds ≠ [] ∧ ds.all Char.isDigit then .ok (-(digitsToNat ds : Int)) else .error "ValueError"
  | '+' :: ds =>
    if ds ≠ [] ∧ ds.all Char.isDigit then .ok (digitsToNat ds : Int) else .error "ValueError"
  | ds =>
    if ds ≠ [] ∧ ds.all Char.isDigit then .ok (digitsToNat ds : Int) else .error "ValueError"

/-- Embeds the `netname` extraction with its `origin` fallback
(create_db.py lines 312–314). -/
def netnameField (block : String) : Option String :=
  let n := parse_property block "netname"
  if pyTruthy n then n else parse_property block "origin"

/-- Embeds the `country`/`city` combination (create_db.py lines 317–321):
when a truthy `city` is present the country becomes the f-string
`f"{country} - {city}"`, rendering an absent country as the text `None`. -/
def countryField (block : String) : Option String :=
  let country := parse_property block "country"
  let city := parse_property block "city"
  if pyTruthy city then some (pyShowOpt country ++ " - " ++ (city.getD "")) else country

/-- Embeds the `last-modified` extraction with the `changed` fallback
(create_db.py lines 324–344).  On the match branch the date token is the
piece after the first space; eight digits are split year/month/day,
validated `1 ≤ month ≤ 12` and `1 ≤ day ≤ 31`, and rendered as
`f"{year}-{month}-{day}"`.  On validation failure the field keeps its
original falsy value; without an `@`-match the raw `changed` value is used
verbatim.  `int()` of a non-numeric slice is a `ValueError`. -/
def lastModifiedField (block : String) : Except String (Option String) :=
  let lm := parse_property block "last-modified"
  if pyTruthy lm then .ok lm
  else
    let changed := parse_property block "changed"
    if pyTruthy changed && matchesChangedRe (changed.getD "") then
      match splitChar ' ' (changed.getD "").data [] with
      | _ :: date :: _ =>
        let date := pyStrip date
        if date.length = 8 then
          match pyInt (date.take 4), pyInt ((date.drop 4).take 2), pyInt ((date.drop 6).take 2) with
          | .ok year, .ok month, .ok day =>
            if 1 ≤ month ∧ month ≤ 12 ∧ 1 ≤ day ∧ day ≤ 31 then
              .ok (some (toString year ++ "-" ++ toString month ++ "-" ++ toString day))
            else .ok lm
          | .error e, _, _ => .error e
          | _, .error e, _ => .error e
          | _, _, .error e => .error e
        else .ok lm
      | _ => .error "IndexError"
    else if pyTruthy changed && strContains (changed.getD "") "@" then .ok lm
    else .ok changed

/-! ## NormalizedRecord rows and the worker loop
(`parse_blocks`, create_db.py lines 277–402) -/

/-- The dotted-quad rendering of an IPv4 address. -/
def natToQuadStr (n : Nat) : String :=
  toString (n / 2 ^ 24 % 256) ++ "." ++ toString (n / 2 ^ 16 % 256) ++ "." ++
    toString (n / 2 ^ 8 % 256) ++ "." ++ toString (n % 256)

/-- Rendering of one CIDR block, as `str(IPNetwork)` does. -/
def cidrToStr (c : Nat × Nat) : String := natToQuadStr c.1 ++ "/" ++ toString c.2

/-- One persisted row: the `block_data` dictionary of `parse_blocks`
(create_db.py lines 351–362 and 368–379). -/
structure Row where
  inetnum : String
  netname : Option String
  description : Option String
  country : Option String
  maintained_by : Option String
  created : Option String
  last_modified : Option String
  source : Option String
  status : Option String
  import_date : Nat
deriving DecidableEq, Repr

/-- The `block_data` row for one decomposed CIDR (or passthrough string)
of a block. -/
def mkRow (block : String) (lm : Option String) (inet : String) (import_date : Nat) : Row :=
  { inetnum := inet
    netname := netnameField block
    description := parse_property block "descr"
    country := countryField block
    maintained_by := parse_property block "mnt-by"
    created := parse_property block "created"
    last_modified := lm
    source := parse_property block "cust_source"
    status := parse_property block "status"
    import_date := import_date }

/-- The rows one block writes: `none` when the extracted address is falsy
(Python `if not inetnum:`, true for `None` and for an empty list) and the
block is skipped with a warning; one row per decomposed CIDR for a range,
one row for a passthrough string. -/
def blockRecords (block : String) (import_date : Nat) : Except String (Option (List Row)) :=
  match parse_property_inetnum block with
  | .error e => .error e
  | .ok none => .ok none
  | .ok (some (.cidrs [])) => .ok none
  | .ok (some (.cidrs cs)) =>
    match lastModifiedField block with
    | .error e => .error e
    | .ok lm => .ok (some (cs.map fun c => mkRow block lm (cidrToStr c) import_date))
  | .ok (some (.cidrStr s)) =>
    match lastModifiedField block with
    | .error e => .error e
    | .ok lm => .ok (some [mkRow block lm s import_date])

/-- Observable actions of a worker, in order.  `commitCycle` stands for the
batch boundary of create_db.py lines 388–397: `session.commit()`, closing
and reopening the session, and the progress log, performed together;
`finalCommit` is the commit after the sentinel (line 399); `warnSkip` is
the skipped-block warning (line 309). -/
inductive Event where
  | write (r : Row)
  | commitCycle
  | finalCommit
  | warnSkip
deriving DecidableEq, Repr

/-- One iteration of the worker loop body for one block: returns the new
batch counter and the emitted events.  The counter counts blocks whose
address parsed (`counter += 1` at line 385, reached only past the skip),
and the commit cycle fires when it reaches 10000, resetting it. -/
def stepBlock (import_date : Nat) (counter : Nat) (block : String) :
    Except String (Nat × List Event) :=
  match blockRecords block import_date with
  | .error e => .error e
  | .ok none => .ok (counter, [.warnSkip])
  | .ok (some rows) =>
    let writes := rows.map Event.write
    if (counter + 1) % 10000 = 0 then .ok (0, writes ++ [.commitCycle])
    else .ok (counter + 1, writes)

/-- The worker loop over a sequence of blocks from a given batch counter:
accumulated events and final counter. -/
def loopBlocks (import_date : Nat) : Nat → List String → Except String (Nat × List Event)
  | counter, [] => .ok (counter, [])
  | counter, b :: bs =>
    match stepBlock import_date counter b with
    | .error e => .error e
    | .ok (c1, evs) =>
      match loopBlocks import_date c1 bs with
      | .error e => .error e
      | .ok (c2, evs2) => .ok (c2, evs ++ evs2)

/-- Embeds the event trace of `parse_blocks` over its whole block sequence
(the queue contents up to the sentinel), ending with the final commit. -/
def parse_blocks (import_date : Nat) (blocks : List String) : Except String (List Event) :=
  match loopBlocks import_date 0 blocks with
  | .error e => .error e
  | .ok (_, evs) => .ok (evs ++ [.finalCommit])

/-- Whether an event is one of the two commit points. -/
def isCommitEvent : Event → Bool
  | .commitCycle => true
  | .finalCommit => true
  | _ => false

/-- Whether an event writes a record. -/
def isWriteEvent : Event → Bool
  | .write _ => true
  | _ => false

/-- Whether an event is the batch commit cycle. -/
def isCommitCycle : Event → Bool
  | .commitCycle => true
  | _ => false

/-- Number of records written before the first commit of a trace. -/
def writesBeforeFirstCommit (evs : List Event) : Nat :=
  ((evs.takeWhile fun e => !isCommitEvent e).filter isWriteEvent).length

/-- Number of batch commit cycles in a trace. -/
def commitCycleCount (evs : List Event) : Nat :=
  (evs.filter isCommitCycle).length

/-- Whether a block is successfully processed (parses to a truthy address,
so it reaches `counter += 1`). -/
def blockProcessed (block : String) : Bool :=
  match parse_property_inetnum block with
  | .ok (some (.cidrs [])) => false
  | .ok (some _) => true
  | _ => false

/-- Number of processed blocks of a sequence. -/
def processedCount (blocks : List String) : Nat := (blocks.filter blockProcessed).length

/-! ## Storage Sink (`upsert_block`, create_db.py lines 252–274)

PostgreSQL resolves `ON CONFLICT ON CONSTRAINT <name>` against the target
table's declared constraints and rejects the statement with an error when
no constraint of that name exists; otherwise the insert updates, on a key
conflict, exactly the columns of the `set_` mapping. -/

/-- The conflict key of a row under a unique constraint over columns
`("inetnum", "source")`. -/
def rowKey (r : Row) : String × Option String := (r.inetnum, r.source)

/-- The `set_` mapping of `upsert_block` (create_db.py lines 263–272):
overwrite the mutable fields of `old` with those of the excluded row `new`,
leaving `inetnum` and `source` untouched. -/
def applyConflictUpdate (old new : Row) : Row :=
  { old with
    netname := new.netname
    description := new.description
    country := new.country
    maintained_by := new.maintained_by
    created := new.created
    last_modified := new.last_modified
    status := new.status
    import_date := new.import_date }

/-- Embeds `upsert_block` against a table with the given `__table_args__`:
the statement names the constraint `uq_block_inetnum_source`; if the schema
declares no unique constraint of that name the store rejects the statement,
otherwise insert-or-update keyed on `(inetnum, source)`. -/
def upsert_block (args : List TableArg) (table : List Row) (r : Row) :
    Except String (List Row) :=
  match findUniqueConstraint args upsertConflictConstraint with
  | none => .error "ProgrammingError: constraint uq_block_inetnum_source does not exist"
  | some _ =>
    if table.any fun row => rowKey row = rowKey r then
      .ok (table.map fun row => if rowKey row = rowKey r then applyConflictUpdate row r else row)
    else .ok (table ++ [r])

/-- An incremental-mode run of the storage sink: upsert every row in order
into the table. -/
def runIncremental (args : List TableArg) (table : List Row) (rows : List Row) :
    Except String (List Row) :=
  rows.foldlM (upsert_block args) table

/-! ## Auxiliary notions used by the statements below -/

/-- Membership of an address in a block in exponent form
`(start, exponent)`, covering `[start, start + 2 ^ exponent)`. -/
def memB (x : Nat) (c : Nat × Nat) : Prop := c.1 ≤ x ∧ x < c.1 + 2 ^ c.2

/-- Disjointness of two exponent-form blocks. -/
def disjB (c d : Nat × Nat) : Prop := ∀ x, ¬ (memB x c ∧ memB x d)

/-- A digit group that is a legal IPv4 octet: one to three digits with
value at most 255 (the shape the range regex accepts and
`netaddr.IPAddress` then admits). -/
def isOctet (g : List Char) : Prop :=
  g ≠ [] ∧ g.length ≤ 3 ∧ (∀ ch ∈ g, ch.isDigit) ∧ digitsToNat g ≤ 255

/-- The text of a dotted quad from its four octet digit groups. -/
def quadChars (a b c d : List Char) : List Char := List.intercalate ['.'] [a, b, c, d]

/-- A WHOIS block consisting of the single line
`inetnum: <start> - <end>` for two dotted quads. -/
def rangeLine (q1 q2 : List Char) : String :=
  ⟨"inetnum: ".data ++ q1 ++ " - ".data ++ q2 ++ ['\n']⟩

/-- Characters of a block made of `descr:` and `remarks:` lines (left and
right summands respectively). -/
def descrChars : List (String ⊕ String) → List Char
  | [] => []
  | .inl v :: r => "descr: ".data ++ v.data ++ '\n' :: descrChars r
  | .inr w :: r => "remarks: ".data ++ w.data ++ '\n' :: descrChars r

/-- A block made of `descr:` and `remarks:` lines. -/
def mkDescrBlock (ls : List (String ⊕ String)) : String := ⟨descrChars ls⟩

/-- The `descr:` values of such a block, in order. -/
def descrValues (ls : List (String ⊕ String)) : List String :=
  ls.filterMap fun x =>
    match x with
    | .inl v => some v
    | .inr _ => none

/-- A concrete block whose dotted-quad range decomposes into two CIDRs
(`10.0.0.0/23` and `10.0.2.0/24`), so one block writes two records. -/
def twoCidrBlock : String := "inetnum: 10.0.0.0 - 10.0.2.255\n"

/-! # Theorems -/

/-! ## C1 — the schema behind the incremental upsert -/

/-- C1: the claim says the `Block` model's schema carries a uniqueness
constraint named `uq_block_inetnum_source` over `(inetnum, source)` for the
upsert to resolve against.  The model's `__table_args__` declares no unique
constraint at all — in particular none of the name the upsert uses — so the
code contradicts its own upsert (which would be rejected by the store);
this theorem evaluates the schema at that failing point. -/
theorem c1_upsert_constraint_missing :
    findUniqueConstraint blockTableArgs upsertConflictConstraint = none ∧
      uniqueConstraintNames blockTableArgs = [] := by
  decide

/-! ## C5 — registry classification order -/

/-- Two lists that prefix the same list are comparable. -/
theorem startsWith_excl (f p q : String) (hpq : ¬ p.data <+: q.data ∧ ¬ q.data <+: p.data)
    (hp : strStartsWith f p = true) : strStartsWith f q = false := by
  rw [strStartsWith] at hp ⊢
  by_contra h
  rw [Bool.not_eq_false, List.isPrefixOf_iff_prefix] at h
  rw [List.isPrefixOf_iff_prefix] at hp
  rcases List.prefix_or_prefix_of_prefix hp h with h1 | h1
  · exact hpq.1 h1
  · exact hpq.2 h1

/-- C5 counterexample: the claim says all four prefix checks, including
`ripe`, run before the `lacnic` substring check.  But `get_source` tests
`"lacnic" in filename` before the `ripe` prefix, so a `ripe`-prefixed
filename containing `lacnic` is classified `lacnic`, not `ripe`. -/
theorem c5_counterexample :
    get_source "ripe.lacnic.db.gz" = some "lacnic" ∧
      (some "lacnic" : Option String) ≠ some "ripe" := by
  decide

/-- C5 (amended): the `afrinic`, `apnic` and `arin` prefix checks run
before the `lacnic` substring-anywhere check, so those three prefixes win
even when `lacnic` occurs elsewhere in the filename; the `ripe` prefix
check runs after it, so a `ripe`-prefixed filename containing `lacnic` is
tagged `lacnic`. -/
theorem c5_classifier_order (f : String) :
    (strStartsWith f "afrinic" = true → get_source f = some "afrinic") ∧
    (strStartsWith f "apnic" = true → get_source f = some "apnic") ∧
    (strStartsWith f "arin" = true → get_source f = some "arin") ∧
    (strStartsWith f "ripe" = true → strContains f "lacnic" = true →
      get_source f = some "lacnic") := by
  refine ⟨fun h => ?_, fun h => ?_, fun h => ?_, fun h hl => ?_⟩
  · simp [get_source, h]
  · simp [get_source, h, startsWith_excl f "apnic" "afrinic" (by decide) h]
  · simp [get_source, h, startsWith_excl f "arin" "afrinic" (by decide) h,
      startsWith_excl f "arin" "apnic" (by decide) h]
  · simp [get_source, hl, startsWith_excl f "ripe" "afrinic" (by decide) h,
      startsWith_excl f "ripe" "apnic" (by decide) h,
      startsWith_excl f "ripe" "arin" (by decide) h]

/-- C5 witness: the amended ordering at concrete filenames. -/
theorem c5_witness :
    get_source "arin.db.gz" = some "arin" ∧
      get_source "ripe.db.lacnic.gz" = some "lacnic" :=
  ⟨(c5_classifier_order "arin.db.gz").2.2.1 (by decide),
    (c5_classifier_order "ripe.db.lacnic.gz").2.2.2 (by decide) (by decide)⟩

/-! ## C6 — unknown registry tag -/

/-- One tagless segmenter step that succeeds leaves the emitted block list
unchanged: the only emitting branch goes through the failing bytes
interpolation. -/
theorem readBlocksStep_none_snd (st st1 : String × List String) (l : String)
    (h : readBlocksStep none st l = Except.ok st1) : st1.2 = st.2 := by
  rw [readBlocksStep] at h
  by_cases hc : isCommentLine l = true
  · rw [if_pos hc] at h
    rw [← Except.ok.inj h]
  · rw [if_neg hc] at h
    by_cases hb : isBlankLine l = true
    · rw [if_pos hb] at h
      by_cases hr : isRecognizedBlock st.1 = true
      · rw [if_pos hr] at h
        simp only [appendCustSource] at h
        exact Except.noConfusion h
      · rw [if_neg hr] at h
        rw [← Except.ok.inj h]
    · rw [if_neg hb] at h
      rw [← Except.ok.inj h]

/-- With no registry tag, the segmenter fold can only return the block list
it started with. -/
theorem readBlocksFold_none_blocks :
    ∀ (lines : List String) (st st2 : String × List String),
      lines.foldlM (readBlocksStep none) st = Except.ok st2 → st2.2 = st.2 := by
  intro lines
  induction lines with
  | nil =>
    intro st st2 h
    rw [List.foldlM_nil] at h
    rw [← Except.ok.inj h]
  | cons l ls ih =>
    intro st st2 h
    rw [List.foldlM_cons] at h
    rcases h1 : readBlocksStep none st l with e | st1
    · rw [h1] at h; simp [Bind.bind, Except.bind] at h
    · rw [h1] at h
      simp only [Bind.bind, Except.bind] at h
      rw [ih st1 st2 h]
      exact readBlocksStep_none_snd st st1 l h1

/-- C6 counterexample: the claim says an unrecognized filename propagates a
literal `"unknown"` tag and the block is processed normally.  In fact
`get_source` yields no tag at all, and appending the synthetic
`cust_source` line interpolates `None` into a bytes template, which raises
`TypeError` — the file fails on its first retained block. -/
theorem c6_counterexample :
    get_source "unknown.db" = none ∧
      read_blocks "unknown.db" ["inetnum: 10.0.0.0 - 10.0.0.255", ""] =
        .error "TypeError: %b requires a bytes-like object, not NoneType" := by
  constructor
  · decide
  · rfl

/-- C6 (amended): a filename matching no registry yields no tag (`None`,
not a literal `"unknown"`); a segmentation of such a file either raises
`TypeError` at the first retained block or — when nothing is retained —
returns an empty block list, so no record with any marker is ever
emitted. -/
theorem c6_unknown_tag_fails (fname : String) (lines bs : List String)
    (htag : get_source ⟨(splitChar '/' fname.data []).getLastD fname.data⟩ = none)
    (h : read_blocks fname lines = .ok bs) : bs = [] := by
  rw [read_blocks, htag] at h
  rcases h2 : lines.foldlM (readBlocksStep none) ("", []) with e | st2
  · rw [h2] at h; exact absurd h (by simp [Except.map])
  · rw [h2] at h
    have := readBlocksFold_none_blocks lines _ _ h2
    simp only [Except.map] at h
    have hb := Except.ok.inj h
    rw [← hb, this]

/-- C6 witness: the amended behaviour at a concrete unknown file whose
only content is dropped. -/
theorem c6_witness : ([] : List String) = [] :=
  c6_unknown_tag_fails "unknown.db" ["person: Bob", ""] [] (by decide) (by rfl)

/-! ## C9 — the segmenter drops an unterminated final block -/

/-- A run of non-blank lines never emits: the fold only accumulates (or
skips comments), leaving the emitted block list unchanged and never
failing. -/
theorem readBlocksFold_no_blank (tag : Option String) :
    ∀ (tail : List String) (st : String × List String),
      (∀ l ∈ tail, isBlankLine l = false) →
      ∃ acc2, tail.foldlM (readBlocksStep tag) st = Except.ok (acc2, st.2) := by
  intro tail
  induction tail with
  | nil => intro st _; exact ⟨st.1, rfl⟩
  | cons l ls ih =>
    intro st hbl
    rw [List.foldlM_cons]
    have hl : isBlankLine l = false := hbl l (List.mem_cons_self l ls)
    by_cases hc : isCommentLine l = true
    · have hstep : readBlocksStep tag st l = .ok st := by
        rw [readBlocksStep]; simp [hc]
      rw [hstep]
      simpa [Bind.bind, Except.bind] using ih st (fun x hx => hbl x (List.mem_cons_of_mem l hx))
    · have hstep : readBlocksStep tag st l = .ok (st.1 ++ l ++ "\n", st.2) := by
        rw [readBlocksStep]
        simp [hc, hl]
      rw [hstep]
      simpa [Bind.bind, Except.bind] using
        ih (st.1 ++ l ++ "\n", st.2) (fun x hx => hbl x (List.mem_cons_of_mem l hx))

/-- C9: a candidate block that is not followed by a blank line before
end-of-file is never emitted: appending any blank-free suffix to a file —
in particular a recognized `inetnum:`/`inet6num:`/`route:`/`route6:` object
at the very end — leaves the returned block list of `read_blocks`
unchanged.  Blocks are appended only when a blank terminator is seen. -/
theorem c9_final_block_dropped (fname : String) (ls tail : List String)
    (htail : ∀ l ∈ tail, isBlankLine l = false) :
    read_blocks fname (ls ++ tail) = read_blocks fname ls := by
  rw [read_blocks, read_blocks, List.foldlM_append]
  rcases h : ls.foldlM (readBlocksStep (get_source ⟨(splitChar '/' fname.data []).getLastD fname.data⟩)) ("", []) with e | st
  · simp [Bind.bind, Except.bind]
  · simp only [Bind.bind, Except.bind]
    rcases readBlocksFold_no_blank _ tail st htail with ⟨acc2, h2⟩
    rw [h2]
    simp [Except.map]

/-- C9 witness: a recognized object at the very end of a file with no
trailing blank line is silently dropped. -/
theorem c9_witness :
    read_blocks "ripe.db.gz" ["inetnum: 1.2.3.0 - 1.2.3.255"] =
      read_blocks "ripe.db.gz" [] :=
  c9_final_block_dropped "ripe.db.gz" [] ["inetnum: 1.2.3.0 - 1.2.3.255"] (by decide)

/-! ## C10 — absent country with a city -/

/-- C10: a block with a truthy `city:` but no `country:` gets the literal
string `None - <city>` as its country — the f-string renders the absent
country as the text `None` — both in the combined field and in every row
built from the block. -/
theorem c10_country_none_city (block : String) (c : String)
    (hcountry : parse_property block "country" = none)
    (hcity : parse_property block "city" = some c) (hc : c ≠ "") :
    countryField block = some ("None - " ++ c) ∧
      ∀ lm inet t, (mkRow block lm inet t).country = some ("None - " ++ c) := by
  have h : countryField block = some ("None - " ++ c) := by
    rw [countryField, hcountry, hcity]
    simp [pyTruthy, hc, pyShowOpt]
  exact ⟨h, fun lm inet t => by rw [mkRow]; exact h⟩

/-- C10 witness: the combination at a concrete block. -/
theorem c10_witness :
    countryField "inetnum: 1.2.3.0 - 1.2.3.255\ncity: Lima\n" = some ("None - " ++ "Lima") ∧
      ∀ lm inet t,
        (mkRow "inetnum: 1.2.3.0 - 1.2.3.255\ncity: Lima\n" lm inet t).country =
          some ("None - " ++ "Lima") :=
  c10_country_none_city "inetnum: 1.2.3.0 - 1.2.3.255\ncity: Lima\n" "Lima"
    (by decide) (by decide) (by decide)

/-! ## C3 — the `changed` date `20230431` -/

/-- C3 counterexample: the claim says `changed: admin@example.com 20230431`
(day 31 in a 30-day month) yields an absent modified date.  The code only
validates `1 ≤ month ≤ 12` and `1 ≤ day ≤ 31`, so `20230431` passes and the
stored value is `2023-4-31`, not an absence. -/
theorem c3_counterexample :
    lastModifiedField "inetnum: 1.2.3.0 - 1.2.3.255\nchanged: admin@example.com 20230431\n" =
      .ok (some "2023-4-31") ∧
      (some "2023-4-31" : Option String) ≠ none := by
  constructor
  · rfl
  · decide

/-- C3 (amended): for every block with no truthy `last-modified` and whose
`changed` value is exactly `admin@example.com 20230431`, the extraction
does not crash and produces the date string `2023-4-31`: the day-of-month
check `1 ≤ day ≤ 31` accepts day 31 regardless of the month's length. -/
theorem c3_changed_date_accepted (block : String)
    (hlm : parse_property block "last-modified" = none)
    (hch : parse_property block "changed" = some "admin@example.com 20230431") :
    lastModifiedField block = .ok (some "2023-4-31") := by
  rw [lastModifiedField, hlm, hch]
  rfl

/-- C3 witness: the amended extraction at a concrete block. -/
theorem c3_witness :
    lastModifiedField "changed: admin@example.com 20230431\n" = .ok (some "2023-4-31") :=
  c3_changed_date_accepted "changed: admin@example.com 20230431\n" (by decide) (by decide)

/-! ## C8 — incremental idempotence -/

/-- C8: the claim says two incremental runs over the same input leave one
row per `(address_prefix, source_registry)` key.  Because the `Block`
schema declares no constraint named `uq_block_inetnum_source`, the store
rejects the very first conflict-aware insert of any incremental run
(`ON CONFLICT ON CONSTRAINT` with an undefined constraint), so no run — let
alone a repeated one — produces rows at all; this theorem evaluates the
sink at that failing point. -/
theorem c8_incremental_run_rejected (table : List Row) (r : Row) (rows : List Row) :
    runIncremental blockTableArgs table (r :: rows) =
      .error "ProgrammingError: constraint uq_block_inetnum_source does not exist" := by
  rw [runIncremental, List.foldlM_cons]
  have h : upsert_block blockTableArgs table r =
      .error "ProgrammingError: constraint uq_block_inetnum_source does not exist" := by
    rw [upsert_block]
    rfl
  rw [h]
  rfl

/-! ## C4 — the commit cadence of the worker loop -/

/-- The two records of `twoCidrBlock`, for a run with import date 0. -/
theorem twoCidrBlock_records :
    blockRecords twoCidrBlock 0 =
      .ok (some [mkRow twoCidrBlock none "10.0.0.0/23" 0,
        mkRow twoCidrBlock none "10.0.2.0/24" 0]) := by
  rfl

/-- One worker step on `twoCidrBlock` below the batch boundary: the counter
advances by one block while two records are written. -/
theorem stepBlock_twoCidr (c : Nat) (h : (c + 1) % 10000 ≠ 0) :
    stepBlock 0 c twoCidrBlock =
      .ok (c + 1, [Event.write (mkRow twoCidrBlock none "10.0.0.0/23" 0),
        Event.write (mkRow twoCidrBlock none "10.0.2.0/24" 0)]) := by
  rw [stepBlock, twoCidrBlock_records]
  simp [h]

/-- The worker loop over `n` copies of `twoCidrBlock` staying below the
batch boundary: no commit cycle occurs although `2 * n` records are
written. -/
theorem loopBlocks_replicate_twoCidr :
    ∀ (n c : Nat), c + n < 10000 →
      loopBlocks 0 c (List.replicate n twoCidrBlock) =
        .ok (c + n,
          (List.replicate n [Event.write (mkRow twoCidrBlock none "10.0.0.0/23" 0),
            Event.write (mkRow twoCidrBlock none "10.0.2.0/24" 0)]).flatten) := by
  intro n
  induction n with
  | zero => intro c _; simp [loopBlocks]
  | succ n ih =>
    intro c h
    rw [List.replicate_succ, loopBlocks, stepBlock_twoCidr c (by omega)]
    dsimp only
    rw [ih (c + 1) (by omega)]
    dsimp only
    have harith : c + 1 + n = c + (n + 1) := by omega
    rw [harith, List.replicate_succ, List.flatten_cons]

/-- A leading write event adds one to the pre-commit record count. -/
theorem writesBeforeFirstCommit_write (r : Row) (evs : List Event) :
    writesBeforeFirstCommit (Event.write r :: evs) = writesBeforeFirstCommit evs + 1 := by
  rw [writesBeforeFirstCommit, writesBeforeFirstCommit,
    List.takeWhile_cons_of_pos (by rfl), List.filter_cons_of_pos (by rfl)]
  rfl

/-- Record count of the all-writes trace of `n` such blocks followed by the
final commit: `2 * n` records precede the first commit of the run. -/
theorem writesBeforeFirstCommit_replicate :
    ∀ n : Nat,
      writesBeforeFirstCommit
        ((List.replicate n [Event.write (mkRow twoCidrBlock none "10.0.0.0/23" 0),
          Event.write (mkRow twoCidrBlock none "10.0.2.0/24" 0)]).flatten ++
            [Event.finalCommit]) = 2 * n := by
  intro n
  induction n with
  | zero => rfl
  | succ n ih =>
    simp only [List.replicate_succ, List.flatten_cons, List.cons_append, List.nil_append,
      List.append_assoc]
    rw [writesBeforeFirstCommit_write, writesBeforeFirstCommit_write]
    simp only [List.append_assoc] at ih
    rw [ih]
    omega

/-- C4 counterexample: the claim says a commit is issued after every 10,000
records written, counting one record per decomposed CIDR.  Over 5001 blocks
that each decompose into two CIDRs, the worker writes 10,002 records before
its first commit — the counter counts blocks, not records, so the 10,000th
record passes without a commit. -/
theorem c4_counterexample :
    parse_blocks 0 (List.replicate 5001 twoCidrBlock) =
      .ok ((List.replicate 5001 [Event.write (mkRow twoCidrBlock none "10.0.0.0/23" 0),
        Event.write (mkRow twoCidrBlock none "10.0.2.0/24" 0)]).flatten ++
          [Event.finalCommit]) ∧
      writesBeforeFirstCommit
        ((List.replicate 5001 [Event.write (mkRow twoCidrBlock none "10.0.0.0/23" 0),
          Event.write (mkRow twoCidrBlock none "10.0.2.0/24" 0)]).flatten ++
            [Event.finalCommit]) = 10002 ∧ 10000 < 10002 := by
  refine ⟨?_, ?_, by omega⟩
  · rw [parse_blocks, loopBlocks_replicate_twoCidr 5001 0 (by omega)]
  · rw [writesBeforeFirstCommit_replicate 5001]

/-- A list of write events contains no commit cycle. -/
theorem commitCycleCount_writes (rows : List Row) :
    commitCycleCount (rows.map Event.write) = 0 := by
  induction rows with
  | nil => rfl
  | cons r rows ih =>
    rw [List.map_cons, commitCycleCount, List.filter_cons]
    simp only [isCommitCycle, Bool.false_eq_true, if_false]
    rw [← commitCycleCount, ih]

/-- Counting commit cycles distributes over trace concatenation. -/
theorem commitCycleCount_append (a b : List Event) :
    commitCycleCount (a ++ b) = commitCycleCount a + commitCycleCount b := by
  rw [commitCycleCount, commitCycleCount, commitCycleCount, List.filter_append,
    List.length_append]

/-- A block whose records come back nonempty is a processed block. -/
theorem blockProcessed_of_records (b : String) (t : Nat) (rows : List Row)
    (h : blockRecords b t = .ok (some rows)) : blockProcessed b = true := by
  rw [blockRecords] at h
  rcases hp : parse_property_inetnum b with e | o <;> rw [hp] at h
  · simp at h
  · rcases o with _ | r
    · simp at h
    · rcases r with cs | s
      · rcases cs with _ | ⟨c, cs⟩
        · simp at h
        · simp [blockProcessed, hp]
      · simp [blockProcessed, hp]

/-- A block whose records come back absent is a skipped block. -/
theorem blockProcessed_of_skip (b : String) (t : Nat)
    (h : blockRecords b t = .ok none) : blockProcessed b = false := by
  rw [blockRecords] at h
  rcases hp : parse_property_inetnum b with e | o <;> rw [hp] at h
  · simp [blockProcessed, hp]
  · rcases o with _ | r
    · simp [blockProcessed, hp]
    · rcases r with cs | s
      · rcases cs with _ | ⟨c, cs⟩
        · simp [blockProcessed, hp]
        · rcases hl : lastModifiedField b with e | lm <;> rw [hl] at h <;> simp at h
      · rcases hl : lastModifiedField b with e | lm <;> rw [hl] at h <;> simp at h

/-- The commit cadence of the worker loop: starting from a batch counter
below 10000, the number of commit cycles a block sequence produces is the
number of 10000-block boundaries its processed blocks cross, and the final
counter is the remainder. -/
theorem loopBlocks_commit_spec (t : Nat) :
    ∀ (bs : List String) (c c2 : Nat) (evs : List Event), c < 10000 →
      loopBlocks t c bs = .ok (c2, evs) →
      commitCycleCount evs = (c + processedCount bs) / 10000 ∧
        c2 = (c + processedCount bs) % 10000 := by
  intro bs
  induction bs with
  | nil =>
    intro c c2 evs hc h
    simp only [loopBlocks] at h
    have h2 := Except.ok.inj h
    have hcc : c = c2 := congrArg Prod.fst h2
    have hev : ([] : List Event) = evs := congrArg Prod.snd h2
    have hp0 : processedCount ([] : List String) = 0 := rfl
    have hc0 : commitCycleCount ([] : List Event) = 0 := rfl
    constructor
    · rw [← hev, hc0, hp0]; omega
    · rw [← hcc, hp0]; omega
  | cons b bs ih =>
    intro c c2 evs hc h
    rw [loopBlocks] at h
    rcases hs : stepBlock t c b with e | p
    · rw [hs] at h; simp at h
    · rcases p with ⟨c1, evs1⟩
      rw [hs] at h
      dsimp only at h
      rcases hl : loopBlocks t c1 bs with e | q
      · rw [hl] at h; simp at h
      · rcases q with ⟨c2', evs2⟩
        rw [hl] at h
        dsimp only at h
        have h2 := Except.ok.inj h
        have hcc : c2' = c2 := congrArg Prod.fst h2
        have hev : evs1 ++ evs2 = evs := congrArg Prod.snd h2
        rw [stepBlock] at hs
        rcases hr : blockRecords b t with e | o
        · rw [hr] at hs; simp at hs
        · rw [hr] at hs
          rcases o with _ | rows
          · -- skipped block
            dsimp only at hs
            have h3 := Except.ok.inj hs
            have hc1 : c = c1 := congrArg Prod.fst h3
            have he1 : [Event.warnSkip] = evs1 := congrArg Prod.snd h3
            have hproc : blockProcessed b = false := blockProcessed_of_skip b t hr
            have hp : processedCount (b :: bs) = processedCount bs := by
              rw [processedCount, processedCount, List.filter_cons, hproc]
              simp
            rcases ih c1 c2' evs2 (hc1 ▸ hc) hl with ⟨ih1, ih2⟩
            rw [← hev, ← he1, hp, commitCycleCount_append]
            have hskip : commitCycleCount [Event.warnSkip] = 0 := rfl
            rw [hskip, ih1, ← hcc, ih2, ← hc1]
            exact ⟨by omega, by omega⟩
          · -- processed block
            dsimp only at hs
            have hproc : blockProcessed b = true := blockProcessed_of_records b t rows hr
            have hp : processedCount (b :: bs) = processedCount bs + 1 := by
              rw [processedCount, processedCount, List.filter_cons, hproc]
              simp
            by_cases hmod : (c + 1) % 10000 = 0
            · have hc9999 : c = 9999 := by omega
              rw [if_pos hmod] at hs
              have h3 := Except.ok.inj hs
              have hc1 : 0 = c1 := congrArg Prod.fst h3
              have he1 : rows.map Event.write ++ [Event.commitCycle] = evs1 :=
                congrArg Prod.snd h3
              rcases ih c1 c2' evs2 (by omega) hl with ⟨ih1, ih2⟩
              rw [← hev, ← he1, hp, commitCycleCount_append, commitCycleCount_append,
                commitCycleCount_writes, ih1, ← hcc, ih2, ← hc1]
              have hcyc : commitCycleCount [Event.commitCycle] = 1 := rfl
              rw [hcyc, hc9999]
              exact ⟨by omega, by omega⟩
            · rw [if_neg hmod] at hs
              have h3 := Except.ok.inj hs
              have hc1 : c + 1 = c1 := congrArg Prod.fst h3
              have he1 : rows.map Event.write = evs1 := congrArg Prod.snd h3
              rcases ih c1 c2' evs2 (by omega) hl with ⟨ih1, ih2⟩
              rw [← hev, ← he1, hp, commitCycleCount_append, commitCycleCount_writes,
                ih1, ← hcc, ih2, ← hc1]
              exact ⟨by omega, by omega⟩

/-- C4 (amended): the batch boundary — commit, close-and-reopen of the
store connection, progress log, modelled together as one `commitCycle`
event — is reached after every 10,000 successfully processed blocks, not
after every 10,000 records: a block counts once however many records its
decomposed CIDRs produce. -/
theorem c4_commit_per_10000_blocks (t : Nat) (bs : List String) (evs : List Event)
    (h : parse_blocks t bs = .ok evs) :
    commitCycleCount evs = processedCount bs / 10000 := by
  rw [parse_blocks] at h
  rcases hl : loopBlocks t 0 bs with e | q
  · rw [hl] at h; exact Except.noConfusion h
  · rcases q with ⟨c2, evs2⟩
    rw [hl] at h
    have hev : evs2 ++ [Event.finalCommit] = evs := Except.ok.inj h
    rcases loopBlocks_commit_spec t bs 0 c2 evs2 (by omega) hl with ⟨h1, _⟩
    rw [← hev, commitCycleCount_append, h1]
    have hfin : commitCycleCount [Event.finalCommit] = 0 := rfl
    rw [hfin]
    omega

/-- C4 witness: the amended cadence on a single two-CIDR block. -/
theorem c4_witness :
    commitCycleCount [Event.write (mkRow twoCidrBlock none "10.0.0.0/23" 0),
      Event.write (mkRow twoCidrBlock none "10.0.2.0/24" 0), Event.finalCommit] =
      processedCount [twoCidrBlock] / 10000 :=
  c4_commit_per_10000_blocks 0 [twoCidrBlock] _ (by rfl)

/-! ## C7 — the property extractor on interleaved lines -/

/-- Taking non-newline characters of a newline-free run stops exactly at
the appended newline. -/
theorem takeWhile_until_nl (v rest : List Char) (hv : ∀ c ∈ v, c ≠ '\n') :
    (v ++ '\n' :: rest).takeWhile (fun ch => ch ≠ '\n') = v := by
  induction v with
  | nil => simp [List.takeWhile_cons]
  | cons c v ih =>
    have hc : c ≠ '\n' := hv c (List.mem_cons_self c v)
    rw [List.cons_append, List.takeWhile_cons, if_pos (by simp [hc]),
      ih fun x hx => hv x (List.mem_cons_of_mem c hx)]

/-- The line pattern succeeds at a `descr:` line with a nonempty
newline-free value, capturing exactly the value. -/
theorem matchAt_descr_line (v rest : List Char) (hne : v ≠ []) (hv : ∀ c ∈ v, c ≠ '\n') :
    matchAt "descr".data ("descr: ".data ++ (v ++ '\n' :: rest)) = some (v, '\n' :: rest) := by
  have hstep : matchAt "descr".data ("descr: ".data ++ (v ++ '\n' :: rest)) =
      if (v ++ '\n' :: rest).takeWhile (fun ch => ch ≠ '\n') = [] then
        if (' ' : Char) ≠ '\n' then some ([' '], v ++ '\n' :: rest) else none
      else some ((v ++ '\n' :: rest).takeWhile (fun ch => ch ≠ '\n'),
        (v ++ '\n' :: rest).drop ((v ++ '\n' :: rest).takeWhile (fun ch => ch ≠ '\n')).length) :=
    rfl
  rw [hstep, takeWhile_until_nl v rest hv, if_neg hne, List.drop_left]

/-- Unfolding one scanner step at a line start where the pattern
matches. -/
theorem findallAux_step_match (nm : List Char) (f : Nat) (l cap rest : List Char)
    (hm : matchAt nm l = some (cap, rest)) :
    findallAux nm (f + 1) l true = cap :: findallAux nm f rest false := by
  rw [findallAux.eq_def]
  dsimp only
  rw [hm]
  rfl

/-- The scanner consumes a newline-free run and its terminating newline
without finding anything, re-arming the line-start flag. -/
theorem findallAux_consume (nm : List Char) :
    ∀ (cs : List Char) (fuel : Nat) (rest : List Char), (∀ c ∈ cs, c ≠ '\n') →
      cs.length + 1 ≤ fuel →
      findallAux nm fuel (cs ++ '\n' :: rest) false =
        findallAux nm (fuel - (cs.length + 1)) rest true := by
  intro cs
  induction cs with
  | nil =>
    intro fuel rest _ hfuel
    rcases fuel with _ | f
    · omega
    · rw [List.nil_append]
      exact (show findallAux nm (f + 1) ('\n' :: rest) false = findallAux nm f rest true from rfl)
  | cons c cs ih =>
    intro fuel rest hcs hfuel
    rcases fuel with _ | f
    · simp at hfuel
    · have hc : c ≠ '\n' := hcs c (List.mem_cons_self c cs)
      rw [List.cons_append,
        show findallAux nm (f + 1) (c :: (cs ++ '\n' :: rest)) false =
          findallAux nm f (cs ++ '\n' :: rest) (decide (c = '\n')) from rfl]
      rw [decide_eq_false hc]
      rw [ih f rest (fun x hx => hcs x (List.mem_cons_of_mem c hx))
        (by simp at hfuel; omega)]
      congr 1
      simp only [List.length_cons]
      omega

/-- The scanner over a block of `descr:` and `remarks:` lines returns
exactly the `descr:` values, in order. -/
theorem findallAux_descrChars :
    ∀ (ls : List (String ⊕ String)) (fuel : Nat), (descrChars ls).length ≤ fuel →
      (∀ v, Sum.inl v ∈ ls → v ≠ "" ∧ ∀ c ∈ v.data, c ≠ '\n') →
      (∀ w, Sum.inr w ∈ ls → ∀ c ∈ w.data, c ≠ '\n') →
      findallAux "descr".data fuel (descrChars ls) true = (descrValues ls).map String.data := by
  intro ls
  induction ls with
  | nil =>
    intro fuel _ _ _
    rcases fuel with _ | f <;> rfl
  | cons x r ih =>
    intro fuel hfuel hv hw
    rcases x with v | w
    · -- a descr: line
      have hvv := hv v (by simp)
      have hflen : 8 + v.data.length + (descrChars r).length ≤ fuel := by
        have hlen : (descrChars (Sum.inl v :: r)).length =
            8 + v.data.length + (descrChars r).length := by
          rw [descrChars]
          have h7 : ("descr: ".data).length = 7 := rfl
          simp [h7]
          try omega
        rw [hlen] at hfuel
        exact hfuel
      rcases fuel with _ | f
      · omega
      · rw [descrChars, List.append_assoc]
        have hne : v.data ≠ [] := by
          intro hempty
          exact hvv.1 (String.ext (by rw [hempty]))
        rw [findallAux_step_match "descr".data f _ v.data ('\n' :: descrChars r)
          (matchAt_descr_line v.data (descrChars r) hne hvv.2)]
        rcases f with _ | f2
        · omega
        · rw [show descrValues (Sum.inl v :: r) = v :: descrValues r from rfl, List.map_cons]
          exact congrArg (fun z => v.data :: z)
            (ih f2 (by omega)
              (fun x hx => hv x (List.mem_cons_of_mem _ hx))
              (fun x hx => hw x (List.mem_cons_of_mem _ hx)))
    · -- a remarks: line
      have hww := hw w (by simp)
      have hflen : 10 + w.data.length + (descrChars r).length ≤ fuel := by
        have hlen : (descrChars (Sum.inr w :: r)).length =
            10 + w.data.length + (descrChars r).length := by
          rw [descrChars]
          have h9 : ("remarks: ".data).length = 9 := rfl
          simp [h9]
          try omega
        rw [hlen] at hfuel
        exact hfuel
      rcases fuel with _ | f
      · omega
      · rw [descrChars]
        have hnl : ∀ c ∈ "emarks: ".data ++ w.data, c ≠ '\n' := by
          intro c hc
          rcases List.mem_append.mp hc with h1 | h1
          · have hem : ∀ x ∈ "emarks: ".data, x ≠ '\n' := by decide
            exact hem c h1
          · exact hww c h1
        have hcslen : ("emarks: ".data ++ w.data).length = 8 + w.data.length := by
          have h8 : ("emarks: ".data).length = 8 := rfl
          simp [h8]
          try omega
        have hcons := findallAux_consume "descr".data ("emarks: ".data ++ w.data) f
          (descrChars r) hnl (by rw [hcslen]; omega)
        have hih := ih (f - (("emarks: ".data ++ w.data).length + 1))
          (by rw [hcslen]; omega)
          (fun x hx => hv x (List.mem_cons_of_mem _ hx))
          (fun x hx => hw x (List.mem_cons_of_mem _ hx))
        rw [show descrValues (Sum.inr w :: r) = descrValues r from rfl]
        exact Eq.trans hcons hih

/-- C7 counterexample: the claim says the extractor concatenates all the
matched values with single spaces (then collapses whitespace).  But the
post-processing also deletes occurrences of `descr: ` inside the matched
values themselves, so the single matching line `descr: a descr: b` yields
`a b`, not the concatenation `a descr: b` of its match. -/
theorem c7_counterexample :
    parse_property "descr: a descr: b\n" "descr" = some "a b" ∧
      ("a b" : String) ≠ "a descr: b" := by
  constructor
  · rfl
  · decide

/-- C7 (amended): over a block of `descr:` and `remarks:` lines (values
nonempty and newline-free), the extractor finds exactly the `descr:`
values in order and returns absence when none exists; the values are
individually stripped and cleansed of embedded `descr: ` occurrences
(twice), empty pieces dropped, the rest joined with single spaces with
whitespace runs collapsed — `remarks:` lines never contribute. -/
theorem c7_descr_extraction (ls : List (String ⊕ String))
    (hv : ∀ v, Sum.inl v ∈ ls → v ≠ "" ∧ ∀ c ∈ v.data, c ≠ '\n')
    (hw : ∀ w, Sum.inr w ∈ ls → ∀ c ∈ w.data, c ≠ '\n') :
    parse_property (mkDescrBlock ls) "descr" =
      if descrValues ls = [] then none
      else some ⟨List.intercalate [' ']
        (wsSplit (List.intercalate [' ']
          (((descrValues ls).map fun v => cleanMatch "descr".data v.data).filter
            fun p => p ≠ [])))⟩ := by
  have hfind : findallProp "descr".data (mkDescrBlock ls).data =
      (descrValues ls).map String.data :=
    findallAux_descrChars ls (descrChars ls).length (le_refl _) hv hw
  rw [parse_property, hfind]
  cases hvs : descrValues ls with
  | nil => rfl
  | cons v vs =>
    rw [List.map_cons]
    dsimp only
    rw [if_neg (List.cons_ne_nil v vs)]
    rw [← List.map_cons String.data v vs, List.map_map]
    rfl

/-- C7 witness: the amended extraction over interleaved `descr:` and
`remarks:` lines at a concrete block. -/
theorem c7_witness :
    parse_property (mkDescrBlock [Sum.inl "Line one", Sum.inr "noise", Sum.inl "Line two"])
        "descr" =
      if descrValues [Sum.inl "Line one", Sum.inr "noise", Sum.inl "Line two"] = [] then none
      else some ⟨List.intercalate [' ']
        (wsSplit (List.intercalate [' ']
          (((descrValues [Sum.inl "Line one", Sum.inr "noise", Sum.inl "Line two"]).map
              fun v => cleanMatch "descr".data v.data).filter
            fun p => p ≠ [])))⟩ :=
  c7_descr_extraction [Sum.inl "Line one", Sum.inr "noise", Sum.inl "Line two"]
    (by
      intro v hv
      simp at hv
      rcases hv with rfl | rfl
      · exact ⟨by decide, by decide⟩
      · exact ⟨by decide, by decide⟩)
    (by
      intro w hw
      simp at hw
      rw [hw]
      decide)

/-! ## C2 — the range-to-CIDR decomposition

The arithmetic core: `greedyCidrs s t` is the greedy decomposition of the
half-open range `[s, t)`, and the lemmas below establish that it is an
exact, aligned, pairwise-disjoint cover of minimal length. -/

theorem alignExp_le (cap : Nat) : ∀ s, alignExp s cap ≤ cap := by
  induction cap with
  | zero => intro s; rw [alignExp]
  | succ cap ih =>
    intro s
    rw [alignExp]
    by_cases h : s % 2 = 0
    · rw [if_pos h]
      exact Nat.succ_le_succ (ih (s / 2))
    · rw [if_neg h]
      omega

theorem pow_alignExp_dvd (cap : Nat) : ∀ s, 2 ^ alignExp s cap ∣ s := by
  induction cap with
  | zero => intro s; rw [alignExp]; simp
  | succ cap ih =>
    intro s
    rw [alignExp]
    by_cases h : s % 2 = 0
    · rw [if_pos h, pow_succ]
      have h2 : 2 ∣ s := Nat.dvd_of_mod_eq_zero h
      have hcancel : s / 2 * 2 = s := Nat.div_mul_cancel h2
      have hmul := Nat.mul_dvd_mul (ih (s / 2)) (dvd_refl 2)
      rw [hcancel] at hmul
      exact hmul
    · rw [if_neg h]
      simp

theorem le_alignExp_of_pow_dvd : ∀ (m cap s : Nat), m ≤ cap → 2 ^ m ∣ s → m ≤ alignExp s cap := by
  intro m
  induction m with
  | zero => intro cap s _ _; exact Nat.zero_le _
  | succ m ih =>
    intro cap s hm hdvd
    rcases cap with _ | cap
    · omega
    · rw [alignExp]
      have h2 : s % 2 = 0 := by
        have hd : 2 ∣ s := dvd_trans (pow_dvd_pow 2 (by omega : 1 ≤ m + 1)) hdvd
        omega
      rw [if_pos h2]
      have hd2 : 2 ^ m ∣ s / 2 := by
        rcases hdvd with ⟨k, hk⟩
        refine ⟨k, ?_⟩
        rw [hk, pow_succ, Nat.mul_comm (2 ^ m) 2, Nat.mul_assoc]
        exact Nat.mul_div_cancel_left _ (by norm_num)
      have := ih cap (s / 2) (by omega) hd2
      omega

theorem fitExp_le (cap : Nat) : ∀ n, fitExp cap n ≤ cap := by
  induction cap with
  | zero => intro n; rw [fitExp]
  | succ cap ih =>
    intro n
    rw [fitExp]
    by_cases h : 2 ^ (cap + 1) ≤ n
    · rw [if_pos h]
    · rw [if_neg h]
      exact le_trans (ih n) (by omega)

theorem pow_fitExp_le (cap : Nat) : ∀ n, 1 ≤ n → 2 ^ fitExp cap n ≤ n := by
  induction cap with
  | zero => intro n h; rw [fitExp]; simpa using h
  | succ cap ih =>
    intro n h
    rw [fitExp]
    by_cases h2 : 2 ^ (cap + 1) ≤ n
    · rw [if_pos h2]; exact h2
    · rw [if_neg h2]; exact ih n h

theorem le_fitExp (cap : Nat) : ∀ n m, 2 ^ m ≤ n → m ≤ cap → m ≤ fitExp cap n := by
  induction cap with
  | zero => intro n m _ hm; omega
  | succ cap ih =>
    intro n m hpow hm
    rw [fitExp]
    by_cases h : 2 ^ (cap + 1) ≤ n
    · rw [if_pos h]; exact hm
    · rw [if_neg h]
      have hmc : m ≤ cap := by
        by_contra hcon
        have heq : m = cap + 1 := by omega
        rw [heq] at hpow
        exact h hpow
      exact ih n m hpow hmc

theorem pow_greedyLog_dvd (s t : Nat) : 2 ^ greedyLog s t ∣ s := by
  rw [greedyLog]
  exact dvd_trans (pow_dvd_pow 2 (Nat.min_le_left _ _)) (pow_alignExp_dvd 32 s)

theorem greedyLog_le_32 (s t : Nat) : greedyLog s t ≤ 32 := by
  rw [greedyLog]
  exact le_trans (Nat.min_le_left _ _) (alignExp_le 32 s)

theorem greedyLog_fit (s t : Nat) (h : s < t) : s + 2 ^ greedyLog s t ≤ t := by
  rw [greedyLog]
  have h1 : (2:Nat) ^ min (alignExp s 32) (fitExp 32 (t - s)) ≤ 2 ^ fitExp 32 (t - s) :=
    Nat.pow_le_pow_right (by norm_num) (Nat.min_le_right _ _)
  have h2 : (2:Nat) ^ fitExp 32 (t - s) ≤ t - s := pow_fitExp_le 32 (t - s) (by omega)
  omega

theorem le_greedyLog (s t m : Nat) (ht : t ≤ 2 ^ 32) (hdvd : 2 ^ m ∣ s)
    (hfit : s + 2 ^ m ≤ t) : m ≤ greedyLog s t := by
  have hm32 : m ≤ 32 := by
    have hle : (2:Nat) ^ m ≤ 2 ^ 32 := by omega
    exact (Nat.pow_le_pow_iff_right (by norm_num)).mp hle
  rw [greedyLog]
  refine le_min ?_ ?_
  · exact le_alignExp_of_pow_dvd m 32 s hm32 hdvd
  · exact le_fitExp 32 (t - s) m (by omega) hm32

theorem greedyAux_congr : ∀ (f1 f2 s t : Nat), t - s ≤ f1 → t - s ≤ f2 →
    greedyAux f1 s t = greedyAux f2 s t := by
  intro f1
  induction f1 with
  | zero =>
    intro f2 s t h1 h2
    have hns : ¬ s < t := by omega
    rcases f2 with _ | f2
    · rfl
    · rw [show greedyAux 0 s t = [] from rfl, greedyAux, if_neg hns]
  | succ f1 ih =>
    intro f2 s t h1 h2
    by_cases hst : s < t
    · rcases f2 with _ | f2
      · omega
      · rw [greedyAux, greedyAux, if_pos hst, if_pos hst]
        have hpos : 0 < 2 ^ greedyLog s t := pow_pos (by norm_num) _
        congr 1
        exact ih f2 (s + 2 ^ greedyLog s t) t (by omega) (by omega)
    · have e1 : greedyAux (f1 + 1) s t = [] := by rw [greedyAux, if_neg hst]
      rcases f2 with _ | f2
      · rw [e1]; rfl
      · rw [e1, greedyAux, if_neg hst]

theorem greedyCidrs_eq_nil (s t : Nat) (h : ¬ s < t) : greedyCidrs s t = [] := by
  rw [greedyCidrs, show t - s = 0 from by omega]
  rfl

theorem greedyCidrs_eq_cons (s t : Nat) (h : s < t) :
    greedyCidrs s t = (s, greedyLog s t) :: greedyCidrs (s + 2 ^ greedyLog s t) t := by
  rw [greedyCidrs]
  obtain ⟨k, hk⟩ : ∃ k, t - s = k + 1 := ⟨t - s - 1, by omega⟩
  rw [hk, greedyAux, if_pos h]
  congr 1
  rw [greedyCidrs]
  have hpos : 0 < 2 ^ greedyLog s t := pow_pos (by norm_num) _
  exact greedyAux_congr k (t - (s + 2 ^ greedyLog s t)) (s + 2 ^ greedyLog s t) t
    (by omega) (le_refl _)

/-- The greedy decomposition covers exactly the half-open range: every
address of `[s, t)` lies in some block and nothing outside does — no gap,
nothing extra. -/
theorem greedy_cover (t : Nat) : ∀ (fuel s : Nat), t - s ≤ fuel →
    ∀ x, (∃ c ∈ greedyAux fuel s t, memB x c) ↔ (s ≤ x ∧ x < t) := by
  intro fuel
  induction fuel with
  | zero =>
    intro s h x
    constructor
    · rintro ⟨c, hc, _⟩
      exact absurd hc (List.not_mem_nil c)
    · rintro ⟨h1, h2⟩
      omega
  | succ fuel ih =>
    intro s h x
    by_cases hst : s < t
    · rw [greedyAux, if_pos hst]
      have hpos : 0 < 2 ^ greedyLog s t := pow_pos (by norm_num) _
      have hfit := greedyLog_fit s t hst
      have ihx := ih (s + 2 ^ greedyLog s t) (by omega) x
      constructor
      · rintro ⟨c, hc, hmem⟩
        rcases List.mem_cons.mp hc with rfl | hc2
        · rcases hmem with ⟨hm1, hm2⟩
          constructor
          · exact hm1
          · have : x < s + 2 ^ greedyLog s t := hm2
            omega
        · have := ihx.mp ⟨c, hc2, hmem⟩
          omega
      · rintro ⟨h1, h2⟩
        by_cases hx : x < s + 2 ^ greedyLog s t
        · exact ⟨(s, greedyLog s t), List.mem_cons_self _ _, h1, hx⟩
        · obtain ⟨c, hc, hm⟩ := ihx.mpr ⟨by omega, h2⟩
          exact ⟨c, List.mem_cons_of_mem _ hc, hm⟩
    · rw [greedyAux, if_neg hst]
      constructor
      · rintro ⟨c, hc, _⟩
        exact absurd hc (List.not_mem_nil c)
      · rintro ⟨h1, h2⟩
        omega

/-- Every greedy block has exponent at most 32 and starts at an aligned
address. -/
theorem greedy_aligned (t : Nat) : ∀ (fuel s : Nat), ∀ c ∈ greedyAux fuel s t,
    c.2 ≤ 32 ∧ 2 ^ c.2 ∣ c.1 := by
  intro fuel
  induction fuel with
  | zero => intro s c hc; exact absurd hc (List.not_mem_nil c)
  | succ fuel ih =>
    intro s c hc
    by_cases hst : s < t
    · rw [greedyAux, if_pos hst] at hc
      rcases List.mem_cons.mp hc with rfl | hc2
      · exact ⟨greedyLog_le_32 s t, pow_greedyLog_dvd s t⟩
      · exact ih _ c hc2
    · rw [greedyAux, if_neg hst] at hc
      exact absurd hc (List.not_mem_nil c)

/-- The greedy blocks are pairwise disjoint: the head covers
`[s, s + 2 ^ g)` and everything behind it lives in `[s + 2 ^ g, t)`. -/
theorem greedy_pairwise (t : Nat) : ∀ (fuel s : Nat), t - s ≤ fuel →
    (greedyAux fuel s t).Pairwise disjB := by
  intro fuel
  induction fuel with
  | zero => intro s _; exact List.Pairwise.nil
  | succ fuel ih =>
    intro s h
    by_cases hst : s < t
    · rw [greedyAux, if_pos hst]
      have hpos : 0 < 2 ^ greedyLog s t := pow_pos (by norm_num) _
      refine List.Pairwise.cons ?_ (ih (s + 2 ^ greedyLog s t) (by omega))
      intro c hc x hx
      rcases hx with ⟨hxB, hmc⟩
      have hm2 : x < s + 2 ^ greedyLog s t := hxB.2
      have := (greedy_cover t fuel (s + 2 ^ greedyLog s t) (by omega) x).mp ⟨c, hc, hmc⟩
      omega
    · rw [greedyAux, if_neg hst]
      exact List.Pairwise.nil

/-- Starting a feasible but under-sized block at an aligned point only
lengthens the decomposition: from `s + 2 ^ m` the greedy must lay down
`j` sibling blocks before reaching the point `s + 2 ^ (m + j)` the full
block would have reached at once. -/
theorem greedy_len_doubling (t : Nat) (ht : t ≤ 2 ^ 32) :
    ∀ (j m s : Nat), 2 ^ (m + j) ∣ s → s + 2 ^ (m + j) ≤ t →
      (greedyCidrs (s + 2 ^ m) t).length = j + (greedyCidrs (s + 2 ^ (m + j)) t).length := by
  intro j
  induction j with
  | zero => intro m s _ _; simp
  | succ j ih =>
    intro m s hdvd hfit
    have hdvd_m : 2 ^ m ∣ s := dvd_trans (pow_dvd_pow 2 (by omega)) hdvd
    have hdvd_m1 : 2 ^ (m + 1) ∣ s := dvd_trans (pow_dvd_pow 2 (by omega)) hdvd
    have hple : (2:Nat) ^ (m + 1) ≤ 2 ^ (m + (j + 1)) :=
      Nat.pow_le_pow_right (by norm_num) (by omega)
    have hfit1 : s + 2 ^ (m + 1) ≤ t := by omega
    have hpow_succ : (2:Nat) ^ (m + 1) = 2 ^ m + 2 ^ m := by rw [pow_succ]; omega
    have hlow : m ≤ greedyLog (s + 2 ^ m) t := by
      refine le_greedyLog _ t m ht (Nat.dvd_add hdvd_m (dvd_refl _)) ?_
      omega
    have hupp : greedyLog (s + 2 ^ m) t ≤ m := by
      by_contra hcon
      push_neg at hcon
      have hdvd_g : 2 ^ (m + 1) ∣ s + 2 ^ m :=
        dvd_trans (pow_dvd_pow 2 (by omega)) (pow_greedyLog_dvd (s + 2 ^ m) t)
      have hdd : 2 ^ (m + 1) ∣ 2 ^ m := (Nat.dvd_add_right hdvd_m1).mp hdvd_g
      have hlt : (2:Nat) ^ m < 2 ^ (m + 1) := by omega
      have := Nat.le_of_dvd (pow_pos (by norm_num) m) hdd
      omega
    have hgeq : greedyLog (s + 2 ^ m) t = m := le_antisymm hupp hlow
    have hpos1 : 0 < 2 ^ m := pow_pos (by norm_num : (0:ℕ) < 2) m
    have hlt_t : s + 2 ^ m < t := by omega
    rw [greedyCidrs_eq_cons (s + 2 ^ m) t hlt_t, hgeq, List.length_cons]
    have hstep : s + 2 ^ m + 2 ^ m = s + 2 ^ (m + 1) := by omega
    rw [hstep]
    have harg : m + 1 + j = m + (j + 1) := by omega
    have ihm := ih (m + 1) s (by rw [harg]; exact hdvd) (by rw [harg]; exact hfit)
    rw [harg] at ihm
    omega

/-- Minimality of the greedy decomposition: any list of aligned, pairwise
disjoint blocks whose union is exactly `[s, t)` has at least as many blocks
as the greedy one. -/
theorem greedy_minimal (t : Nat) (ht : t ≤ 2 ^ 32) :
    ∀ (fuel s : Nat), t - s ≤ fuel →
      ∀ P : List (Nat × Nat), (∀ c ∈ P, 2 ^ c.2 ∣ c.1) → P.Pairwise disjB →
        (∀ x, (∃ c ∈ P, memB x c) ↔ (s ≤ x ∧ x < t)) →
        (greedyCidrs s t).length ≤ P.length := by
  intro fuel
  induction fuel with
  | zero =>
    intro s h P _ _ _
    rw [greedyCidrs_eq_nil s t (by omega)]
    exact Nat.zero_le _
  | succ fuel ih =>
    intro s h P halign hpair hcover
    by_cases hst : s < t
    · obtain ⟨B, hBP, hBmem⟩ := (hcover s).mpr ⟨le_refl s, hst⟩
      obtain ⟨a, m⟩ := B
      have hposm : 0 < 2 ^ m := pow_pos (by norm_num : (0:ℕ) < 2) m
      have hBa : a = s := by
        have h1 : a ≤ s := hBmem.1
        have hmem_a : memB a (a, m) := ⟨le_refl a, by show a < a + 2 ^ m; omega⟩
        have h2 := ((hcover a).mp ⟨(a, m), hBP, hmem_a⟩).1
        omega
      subst hBa
      have hfitm : a + 2 ^ m ≤ t := by
        have hmem_last : memB (a + 2 ^ m - 1) (a, m) :=
          ⟨by show a ≤ a + 2 ^ m - 1; omega, by show a + 2 ^ m - 1 < a + 2 ^ m; omega⟩
        have := ((hcover (a + 2 ^ m - 1)).mp ⟨(a, m), hBP, hmem_last⟩).2
        omega
      have hdvd_m : 2 ^ m ∣ a := halign (a, m) hBP
      have hmle : m ≤ greedyLog a t := le_greedyLog a t m ht hdvd_m hfitm
      obtain ⟨l1, l2, rfl⟩ : ∃ l1 l2, P = l1 ++ (a, m) :: l2 := List.append_of_mem hBP
      have hlenP : (l1 ++ (a, m) :: l2).length = (l1 ++ l2).length + 1 := by
        simp
        omega
      have hparts := List.pairwise_append.mp hpair
      have hconsparts := List.pairwise_cons.mp hparts.2.1
      have hdisj : ∀ c ∈ l1 ++ l2, disjB (a, m) c := by
        intro c hc x hx
        rcases List.mem_append.mp hc with h1 | h1
        · exact hparts.2.2 c h1 (a, m) (List.mem_cons_self _ _) x ⟨hx.2, hx.1⟩
        · exact hconsparts.1 c h1 x hx
      have hsub : (l1 ++ l2).Sublist (l1 ++ (a, m) :: l2) :=
        List.Sublist.append (List.Sublist.refl l1) (List.sublist_cons_self _ _)
      have halign2 : ∀ c ∈ l1 ++ l2, 2 ^ c.2 ∣ c.1 :=
        fun c hc => halign c (hsub.mem hc)
      have hpair2 : (l1 ++ l2).Pairwise disjB := List.Pairwise.sublist hsub hpair
      have hcover2 : ∀ x, (∃ c ∈ l1 ++ l2, memB x c) ↔ (a + 2 ^ m ≤ x ∧ x < t) := by
        intro x
        constructor
        · rintro ⟨c, hc, hm⟩
          have hx := (hcover x).mp ⟨c, hsub.mem hc, hm⟩
          refine ⟨?_, hx.2⟩
          by_contra hcon
          push_neg at hcon
          exact hdisj c hc x ⟨⟨hx.1, hcon⟩, hm⟩
        · rintro ⟨h1, h2⟩
          obtain ⟨c, hc, hm⟩ := (hcover x).mpr ⟨by omega, h2⟩
          rcases List.mem_append.mp hc with hc1 | hc1
          · exact ⟨c, List.mem_append.mpr (Or.inl hc1), hm⟩
          · rcases List.mem_cons.mp hc1 with rfl | hc2
            · have hm2 : x < a + 2 ^ m := hm.2
              omega
            · exact ⟨c, List.mem_append.mpr (Or.inr hc2), hm⟩
      have hIH := ih (a + 2 ^ m) (by omega) (l1 ++ l2) halign2 hpair2 hcover2
      have hg := pow_greedyLog_dvd a t
      have hgfit := greedyLog_fit a t hst
      have harg : m + (greedyLog a t - m) = greedyLog a t := by omega
      have hdoubling := greedy_len_doubling t ht (greedyLog a t - m) m a
        (by rw [harg]; exact hg) (by rw [harg]; exact hgfit)
      rw [harg] at hdoubling
      rw [greedyCidrs_eq_cons a t hst, List.length_cons]
      omega
    · rw [greedyCidrs_eq_nil s t hst]
      exact Nat.zero_le _

/-- Membership transfer between the mask-length form returned by
`rangeToCidrs` and the exponent form of the greedy decomposition. -/
theorem mem_rangeToCidrs_iff (s e x : Nat) :
    (∃ c ∈ rangeToCidrs s e, memCidr x c) ↔ ∃ c ∈ greedyCidrs s (e + 1), memB x c := by
  rw [rangeToCidrs]
  constructor
  · rintro ⟨c, hc, hm⟩
    rw [List.mem_map] at hc
    obtain ⟨c0, hc0, rfl⟩ := hc
    have h32 := (greedy_aligned (e + 1) (e + 1 - s) s c0 hc0).1
    have hexp : 32 - (32 - c0.2) = c0.2 := by omega
    refine ⟨c0, hc0, hm.1, ?_⟩
    have hm2 : x < c0.1 + 2 ^ (32 - (32 - c0.2)) := hm.2
    rw [hexp] at hm2
    exact hm2
  · rintro ⟨c0, hc0, hm⟩
    have h32 := (greedy_aligned (e + 1) (e + 1 - s) s c0 hc0).1
    have hexp : 32 - (32 - c0.2) = c0.2 := by omega
    refine ⟨(c0.1, 32 - c0.2), List.mem_map_of_mem _ hc0, hm.1, ?_⟩
    show x < c0.1 + 2 ^ (32 - (32 - c0.2))
    rw [hexp]
    exact hm.2

/-- The decomposition of `[s, e]` covers exactly that inclusive range. -/
theorem rangeToCidrs_exactCover (s e : Nat) : exactCover s e (rangeToCidrs s e) := by
  intro x
  rw [mem_rangeToCidrs_iff, greedyCidrs]
  have hg := greedy_cover (e + 1) (e + 1 - s) s (le_refl _) x
  rw [hg]
  omega

/-- The decomposition's blocks are pairwise disjoint. -/
theorem rangeToCidrs_pairwise (s e : Nat) : (rangeToCidrs s e).Pairwise cidrDisjoint := by
  rw [rangeToCidrs, List.pairwise_map]
  refine List.Pairwise.imp_of_mem ?_ (greedy_pairwise (e + 1) (e + 1 - s) s (le_refl _))
  intro c d hc hd hdisj x hx
  have h32c := (greedy_aligned (e + 1) (e + 1 - s) s c hc).1
  have h32d := (greedy_aligned (e + 1) (e + 1 - s) s d hd).1
  have hxc : x < c.1 + 2 ^ (32 - (32 - c.2)) := hx.1.2
  have hxd : x < d.1 + 2 ^ (32 - (32 - d.2)) := hx.2.2
  rw [show 32 - (32 - c.2) = c.2 from by omega] at hxc
  rw [show 32 - (32 - d.2) = d.2 from by omega] at hxd
  exact hdisj x ⟨⟨hx.1.1, hxc⟩, ⟨hx.2.1, hxd⟩⟩

/-- Every block of the decomposition is properly aligned. -/
theorem rangeToCidrs_aligned (s e : Nat) : ∀ c ∈ rangeToCidrs s e, cidrAligned c := by
  intro c hc
  rw [rangeToCidrs, List.mem_map] at hc
  obtain ⟨c0, hc0, rfl⟩ := hc
  have h := greedy_aligned (e + 1) (e + 1 - s) s c0 hc0
  constructor
  · show 32 - c0.2 ≤ 32
    omega
  · show 2 ^ (32 - (32 - c0.2)) ∣ c0.1
    rw [show 32 - (32 - c0.2) = c0.2 from by omega]
    exact h.2

/-- The decomposition is minimal: no aligned disjoint exact cover of
`[s, e]` uses fewer blocks. -/
theorem rangeToCidrs_minimal (s e : Nat) (he : e < 2 ^ 32) (P : List (Nat × Nat))
    (hal : ∀ c ∈ P, cidrAligned c) (hpw : P.Pairwise cidrDisjoint)
    (hcov : exactCover s e P) : (rangeToCidrs s e).length ≤ P.length := by
  have hlen : (rangeToCidrs s e).length = (greedyCidrs s (e + 1)).length := by
    rw [rangeToCidrs, List.length_map]
  have hQlen : (P.map fun c => (c.1, 32 - c.2)).length = P.length := List.length_map _ _
  rw [hlen, ← hQlen]
  apply greedy_minimal (e + 1) (by omega) (e + 1 - s) s (le_refl _)
  · intro c hc
    rw [List.mem_map] at hc
    obtain ⟨p, hp, rfl⟩ := hc
    exact (hal p hp).2
  · rw [List.pairwise_map]
    exact List.Pairwise.imp (fun h => h) hpw
  · intro x
    constructor
    · rintro ⟨c, hc, hm⟩
      rw [List.mem_map] at hc
      obtain ⟨p, hp, rfl⟩ := hc
      have := (hcov x).mp ⟨p, hp, hm⟩
      omega
    · intro hx
      obtain ⟨p, hp, hm⟩ := (hcov x).mpr ⟨hx.1, by omega⟩
      exact ⟨(p.1, 32 - p.2), List.mem_map_of_mem _ hp, hm⟩

/-- A digit is not a whitespace byte. -/
theorem isPyWs_eq_false_of_isDigit (ch : Char) (h : ch.isDigit = true) : isPyWs ch = false := by
  have h1 : ch ≠ ' ' := fun he => by rw [he] at h; exact absurd h (by decide)
  have h2 : ch ≠ '\t' := fun he => by rw [he] at h; exact absurd h (by decide)
  have h3 : ch ≠ '\n' := fun he => by rw [he] at h; exact absurd h (by decide)
  have h4 : ch ≠ '\r' := fun he => by rw [he] at h; exact absurd h (by decide)
  have h5 : ch ≠ '\x0b' := fun he => by rw [he] at h; exact absurd h (by decide)
  have h6 : ch ≠ '\x0c' := fun he => by rw [he] at h; exact absurd h (by decide)
  rw [isPyWs]
  simp [h1, h2, h3, h4, h5, h6]

/-- Maximal munch of `\d{1,3}` consumes exactly a legal octet when a
non-digit follows. -/
theorem takeDigits13_octet (g : List Char) (hg : isOctet g) (ch : Char)
    (hch : ch.isDigit = false) (rest : List Char) :
    takeDigits13 (g ++ ch :: rest) = some (g, ch :: rest) := by
  obtain ⟨hne, hlen, hdig, _⟩ := hg
  rcases g with _ | ⟨x, _ | ⟨y, _ | ⟨z, _ | ⟨w, g4⟩⟩⟩⟩
  · exact absurd rfl hne
  · have hx : x.isDigit = true := hdig x (by simp)
    simp [takeDigits13, hx, hch]
  · have hx : x.isDigit = true := hdig x (by simp)
    have hy : y.isDigit = true := hdig y (by simp)
    simp [takeDigits13, hx, hy, hch]
  · have hx : x.isDigit = true := hdig x (by simp)
    have hy : y.isDigit = true := hdig y (by simp)
    have hz : z.isDigit = true := hdig z (by simp)
    simp [takeDigits13, hx, hy, hz]
  · exfalso
    simp only [List.length_cons] at hlen
    omega

/-- The explicit dotted shape of a quad. -/
theorem quadChars_eq (a b c d : List Char) :
    quadChars a b c d = a ++ '.' :: (b ++ '.' :: (c ++ '.' :: d)) := by
  rw [quadChars]
  simp [List.intercalate]

/-- Whitespace skipping stops at the head of an octet. -/
theorem skipPyWs_octet (g : List Char) (hg : isOctet g) (rest : List Char) :
    skipPyWs (g ++ rest) = g ++ rest := by
  obtain ⟨hne, _, hdig, _⟩ := hg
  rcases g with _ | ⟨x, g1⟩
  · exact absurd rfl hne
  · have hx : isPyWs x = false := isPyWs_eq_false_of_isDigit x (hdig x (by simp))
    rw [List.cons_append, skipPyWs, List.dropWhile_cons, hx]
    rfl

/-- Whitespace skipping over a single leading space. -/
theorem skipPyWs_space (l : List Char) : skipPyWs (' ' :: l) = skipPyWs l := by
  rw [skipPyWs, skipPyWs, List.dropWhile_cons]
  rfl

/-- Maximal munch of four dot-separated octets consumes exactly a quad when
a non-digit follows. -/
theorem takeOctets_quad (a b c d : List Char) (ha : isOctet a) (hb : isOctet b)
    (hc : isOctet c) (hd : isOctet d) (ch : Char) (hch : ch.isDigit = false)
    (rest : List Char) :
    takeOctets 3 (quadChars a b c d ++ ch :: rest) =
      some (quadChars a b c d, ch :: rest) := by
  have hdot : ('.' : Char).isDigit = false := by decide
  rw [quadChars_eq]
  have hshape : (a ++ '.' :: (b ++ '.' :: (c ++ '.' :: d))) ++ ch :: rest =
      a ++ '.' :: (b ++ '.' :: (c ++ '.' :: (d ++ ch :: rest))) := by
    simp [List.append_assoc]
  rw [hshape]
  rw [show (3 : Nat) = 2 + 1 from rfl, takeOctets]
  rw [takeDigits13_octet a ha '.' hdot (b ++ '.' :: (c ++ '.' :: (d ++ ch :: rest)))]
  rw [Option.some_bind]
  rw [show expectChar '.' ('.' :: (b ++ '.' :: (c ++ '.' :: (d ++ ch :: rest)))) =
    some (b ++ '.' :: (c ++ '.' :: (d ++ ch :: rest))) from by simp [expectChar]]
  rw [Option.some_bind]
  rw [show (2 : Nat) = 1 + 1 from rfl, takeOctets]
  rw [takeDigits13_octet b hb '.' hdot (c ++ '.' :: (d ++ ch :: rest))]
  rw [Option.some_bind]
  rw [show expectChar '.' ('.' :: (c ++ '.' :: (d ++ ch :: rest))) =
    some (c ++ '.' :: (d ++ ch :: rest)) from by simp [expectChar]]
  rw [Option.some_bind]
  rw [show (1 : Nat) = 0 + 1 from rfl, takeOctets]
  rw [takeDigits13_octet c hc '.' hdot (d ++ ch :: rest)]
  rw [Option.some_bind]
  rw [show expectChar '.' ('.' :: (d ++ ch :: rest)) = some (d ++ ch :: rest) from by
    simp [expectChar]]
  rw [Option.some_bind]
  rw [takeOctets]
  rw [takeDigits13_octet d hd ch hch rest]
  rfl

/-- Whitespace skipping stops at the head of a quad. -/
theorem skipPyWs_quad (a b c d : List Char) (ha : isOctet a) (rest : List Char) :
    skipPyWs (quadChars a b c d ++ rest) = quadChars a b c d ++ rest := by
  rw [quadChars_eq, List.append_assoc, skipPyWs_octet a ha]

/-- The range pattern matches a single `inetnum: <start> - <end>` line,
capturing the two quads. -/
theorem matchInetnumRange_quads (a b c d a2 b2 c2 d2 : List Char)
    (ha : isOctet a) (hb : isOctet b) (hc : isOctet c) (hd : isOctet d)
    (ha2 : isOctet a2) (hb2 : isOctet b2) (hc2 : isOctet c2) (hd2 : isOctet d2) :
    matchInetnumRange (rangeLine (quadChars a b c d) (quadChars a2 b2 c2 d2)).data =
      some (quadChars a b c d, quadChars a2 b2 c2 d2) := by
  have hsp : (' ' : Char).isDigit = false := by decide
  have hnl : ('\n' : Char).isDigit = false := by decide
  have hdata : (rangeLine (quadChars a b c d) (quadChars a2 b2 c2 d2)).data =
      "inetnum: ".data ++ (quadChars a b c d ++
        (' ' :: '-' :: ' ' :: (quadChars a2 b2 c2 d2 ++ ['\n']))) := by
    rw [rangeLine]
    simp [List.append_assoc]
  rw [hdata, matchInetnumRange]
  have hdrop : dropLit "inetnum:" ("inetnum: ".data ++ (quadChars a b c d ++
      (' ' :: '-' :: ' ' :: (quadChars a2 b2 c2 d2 ++ ['\n'])))) =
      some (' ' :: (quadChars a b c d ++
        (' ' :: '-' :: ' ' :: (quadChars a2 b2 c2 d2 ++ ['\n'])))) := rfl
  rw [hdrop]
  dsimp only
  rw [skipPyWs_space, skipPyWs_quad a b c d ha]
  rw [takeOctets_quad a b c d ha hb hc hd ' ' hsp]
  dsimp only
  rw [skipPyWs_space]
  rw [show skipPyWs ('-' :: ' ' :: (quadChars a2 b2 c2 d2 ++ ['\n'])) =
      '-' :: ' ' :: (quadChars a2 b2 c2 d2 ++ ['\n']) from rfl]
  rw [show expectChar '-' ('-' :: ' ' :: (quadChars a2 b2 c2 d2 ++ ['\n'])) =
      some (' ' :: (quadChars a2 b2 c2 d2 ++ ['\n'])) from rfl]
  dsimp only
  rw [skipPyWs_space, skipPyWs_quad a2 b2 c2 d2 ha2]
  rw [takeOctets_quad a2 b2 c2 d2 ha2 hb2 hc2 hd2 '\n' hnl []]

/-- A line matcher succeeding at the head of the text is the first match. -/
theorem findAtLineStarts_head {α : Type} (m : List Char → Option α) (l : List Char) (x : α)
    (h : m l = some x) : findAtLineStarts m l true = some x := by
  cases l with
  | nil => rw [findAtLineStarts, if_pos rfl, h]
  | cons c r => rw [findAtLineStarts, if_pos rfl, h]

/-- Splitting a dotted quad on the dots recovers the octet groups. -/
theorem splitDots_quadChars (a b c d : List Char)
    (ha : ∀ ch ∈ a, ch.isDigit) (hb : ∀ ch ∈ b, ch.isDigit)
    (hc : ∀ ch ∈ c, ch.isDigit) (hd : ∀ ch ∈ d, ch.isDigit) :
    splitDots (quadChars a b c d) = [a, b, c, d] := by
  rw [splitDots, quadChars]
  refine List.splitOn_intercalate [a, b, c, d] '.' ?_ (by simp)
  intro l hl hdot
  simp only [List.mem_cons, List.not_mem_nil, or_false] at hl
  rcases hl with rfl | rfl | rfl | rfl
  · exact absurd (ha '.' hdot) (by decide)
  · exact absurd (hb '.' hdot) (by decide)
  · exact absurd (hc '.' hdot) (by decide)
  · exact absurd (hd '.' hdot) (by decide)

/-- The value of a dotted quad of legal octets. -/
theorem quadToNat_quadChars (a b c d : List Char)
    (ha : isOctet a) (hb : isOctet b) (hc : isOctet c) (hd : isOctet d) :
    quadToNat (quadChars a b c d) =
      some (ipv4 (digitsToNat a) (digitsToNat b) (digitsToNat c) (digitsToNat d)) := by
  rw [quadToNat, splitDots_quadChars a b c d ha.2.2.1 hb.2.2.1 hc.2.2.1 hd.2.2.1]
  dsimp only
  rw [if_pos ⟨ha.2.2.2, hb.2.2.2, hc.2.2.2, hd.2.2.2⟩]

/-- On a block that is a single well-formed `inetnum: <start> - <end>` line,
the normalizer returns exactly the greedy CIDR decomposition of the
inclusive range between the two quad values. -/
theorem parse_property_inetnum_rangeLine (a b c d a2 b2 c2 d2 : List Char)
    (ha : isOctet a) (hb : isOctet b) (hc : isOctet c) (hd : isOctet d)
    (ha2 : isOctet a2) (hb2 : isOctet b2) (hc2 : isOctet c2) (hd2 : isOctet d2) :
    parse_property_inetnum (rangeLine (quadChars a b c d) (quadChars a2 b2 c2 d2)) =
      .ok (some (.cidrs (rangeToCidrs
        (ipv4 (digitsToNat a) (digitsToNat b) (digitsToNat c) (digitsToNat d))
        (ipv4 (digitsToNat a2) (digitsToNat b2) (digitsToNat c2) (digitsToNat d2))))) := by
  rw [parse_property_inetnum,
    findAtLineStarts_head matchInetnumRange _ _
      (matchInetnumRange_quads a b c d a2 b2 c2 d2 ha hb hc hd ha2 hb2 hc2 hd2)]
  dsimp only
  rw [quadToNat_quadChars a b c d ha hb hc hd,
    quadToNat_quadChars a2 b2 c2 d2 ha2 hb2 hc2 hd2]

/-- C2: on every block carrying a valid dotted-quad `inetnum: <start> - <end>`
line, the CIDR Range Normalizer returns exactly `rangeToCidrs start end`,
which is an exact cover of the inclusive range `[start, end]` by
pairwise-disjoint, properly aligned CIDR blocks, and no aligned disjoint
exact cover of the range uses fewer blocks; in particular
`192.168.0.0 - 192.168.255.255` yields exactly `[192.168.0.0/16]`. -/
theorem c2_minimal_exact_cover (a b c d a2 b2 c2 d2 : List Char) (s e : Nat)
    (ha : isOctet a) (hb : isOctet b) (hc : isOctet c) (hd : isOctet d)
    (ha2 : isOctet a2) (hb2 : isOctet b2) (hc2 : isOctet c2) (hd2 : isOctet d2)
    (hs : s = ipv4 (digitsToNat a) (digitsToNat b) (digitsToNat c) (digitsToNat d))
    (he : e = ipv4 (digitsToNat a2) (digitsToNat b2) (digitsToNat c2) (digitsToNat d2)) :
    parse_property_inetnum (rangeLine (quadChars a b c d) (quadChars a2 b2 c2 d2)) =
      .ok (some (.cidrs (rangeToCidrs s e))) ∧
    exactCover s e (rangeToCidrs s e) ∧
    (rangeToCidrs s e).Pairwise cidrDisjoint ∧
    (∀ c0 ∈ rangeToCidrs s e, cidrAligned c0) ∧
    (∀ P : List (Nat × Nat), (∀ c0 ∈ P, cidrAligned c0) → P.Pairwise cidrDisjoint →
      exactCover s e P → (rangeToCidrs s e).length ≤ P.length) ∧
    rangeToCidrs (ipv4 192 168 0 0) (ipv4 192 168 255 255) = [(ipv4 192 168 0 0, 16)] := by
  have he32 : e < 2 ^ 32 := by
    have h1 := ha2.2.2.2
    have h2 := hb2.2.2.2
    have h3 := hc2.2.2.2
    have h4 := hd2.2.2.2
    have hp : (2 : Nat) ^ 32 = 4294967296 := by norm_num
    rw [he, ipv4, hp]
    omega
  refine ⟨?_, rangeToCidrs_exactCover s e, rangeToCidrs_pairwise s e,
    rangeToCidrs_aligned s e,
    fun P h1 h2 h3 => rangeToCidrs_minimal s e he32 P h1 h2 h3, by decide⟩
  rw [hs, he]
  exact parse_property_inetnum_rangeLine a b c d a2 b2 c2 d2 ha hb hc hd ha2 hb2 hc2 hd2

/-- Witness: the C2 theorem instantiated on the concrete range
`192.168.0.0 - 192.168.255.255`, hypotheses discharged by evaluation. -/
theorem c2_witness :
    parse_property_inetnum (rangeLine
        (quadChars ['1', '9', '2'] ['1', '6', '8'] ['0'] ['0'])
        (quadChars ['1', '9', '2'] ['1', '6', '8'] ['2', '5', '5'] ['2', '5', '5'])) =
      .ok (some (.cidrs (rangeToCidrs (ipv4 192 168 0 0) (ipv4 192 168 255 255)))) ∧
    exactCover (ipv4 192 168 0 0) (ipv4 192 168 255 255)
      (rangeToCidrs (ipv4 192 168 0 0) (ipv4 192 168 255 255)) ∧
    (rangeToCidrs (ipv4 192 168 0 0) (ipv4 192 168 255 255)).Pairwise cidrDisjoint ∧
    (∀ c0 ∈ rangeToCidrs (ipv4 192 168 0 0) (ipv4 192 168 255 255), cidrAligned c0) ∧
    (∀ P : List (Nat × Nat), (∀ c0 ∈ P, cidrAligned c0) → P.Pairwise cidrDisjoint →
      exactCover (ipv4 192 168 0 0) (ipv4 192 168 255 255) P →
      (rangeToCidrs (ipv4 192 168 0 0) (ipv4 192 168 255 255)).length ≤ P.length) ∧
    rangeToCidrs (ipv4 192 168 0 0) (ipv4 192 168 255 255) = [(ipv4 192 168 0 0, 16)] :=
  c2_minimal_exact_cover ['1', '9', '2'] ['1', '6', '8'] ['0'] ['0']
    ['1', '9', '2'] ['1', '6', '8'] ['2', '5', '5'] ['2', '5', '5']
    (ipv4 192 168 0 0) (ipv4 192 168 255 255)
    (by unfold isOctet; decide) (by unfold isOctet; decide)
    (by unfold isOctet; decide) (by unfold isOctet; decide)
    (by unfold isOctet; decide) (by unfold isOctet; decide)
    (by unfold isOctet; decide) (by unfold isOctet; decide)
    (by decide) (by decide)

end NetworkInfo
